import Mathlib

set_option maxRecDepth 100000
set_option maxHeartbeats 1000000

/-!
Verification development for the neighbor-list module `ase/neighborlist.py`
of this repository.

The embedding is a shallow one over exact rational arithmetic:

* particle positions, the 3x3 cell matrix and displacement vectors are
  rational 3-vectors (`Vec3`), periodic shift vectors are integer 3-vectors
  (`IVec3`);
* the floating-point Euclidean distance `d = sqrt(D.D)` computed by the code
  is represented by the exact squared distance `sqd = D.D`; the code's strict
  test `d < c` is embedded as `distLtB sqd c`, i.e. `0 ≤ c ∧ sqd < c²`, which
  is equivalent to `Real.sqrt sqd < c` (lemma `distLtB_iff_sqrt_lt` below);
* `np.linalg.pinv(cell)` is embedded for invertible cells as the exact 3x3
  inverse `Mat3.inv`; theorems about the geometry carry a `det ≠ 0`
  hypothesis (for a singular cell the Python code's pseudo-inverse geometry
  is degenerate and outside the modelled domain);
* the two quantities of the code that are irrational in general,
  `face_dist_c = 1/|b_c|` (used via `int(face_dist/cutoff)`) and
  `ceil(cutoff*nbins/face_dist)`, are computed exactly with integer square
  roots (`ratSqrtFloor`, `ratSqrtCeil`), which agree with the real-number
  floor/ceiling of the square roots (characterisation lemmas below);
* numpy reductions over zero-size arrays (`.max()` of an empty array,
  `np.max` of an empty list), which raise `ValueError`, are embedded as
  `Except.error NLErr.emptyReduction`; reading `self.pair_second` etc.
  before any build (Python `AttributeError`) is `NLErr.attributeError`;
* numpy's padded per-bin buffers (`bins_ba`, `src/ase/neighborlist.py:189`)
  group the atom indices by scaled bin index and pad with `-1`; after the
  `-1` mask of line 259 the net effect per (offset, bin) step is exactly
  "all pairs from (atoms of bin B) x (atoms of bin B')", which is how the
  grouping is embedded (`binList`); `np.argsort` (an unstable sort, so the
  order of equal keys is unspecified by the source) is embedded as
  `List.insertionSort` on the same key.
-/

namespace AseNL

/-- A rational 3-vector: a particle position, displacement or a row of the
cell matrix. -/
structure Vec3 where
  x : ℚ
  y : ℚ
  z : ℚ
deriving DecidableEq, Repr

/-- An integer 3-vector: a periodic shift (image) vector or a bin offset. -/
structure IVec3 where
  x : ℤ
  y : ℤ
  z : ℤ
deriving DecidableEq, Repr

namespace Vec3

instance : Zero Vec3 := ⟨⟨0, 0, 0⟩⟩
instance : Add Vec3 := ⟨fun u v => ⟨u.x + v.x, u.y + v.y, u.z + v.z⟩⟩
instance : Sub Vec3 := ⟨fun u v => ⟨u.x - v.x, u.y - v.y, u.z - v.z⟩⟩
instance : Neg Vec3 := ⟨fun v => ⟨-v.x, -v.y, -v.z⟩⟩
instance : SMul ℚ Vec3 := ⟨fun c v => ⟨c * v.x, c * v.y, c * v.z⟩⟩

/-- Euclidean inner product of two 3-vectors. -/
def dot (u v : Vec3) : ℚ := u.x * v.x + u.y * v.y + u.z * v.z

/-- Squared Euclidean norm. -/
def sq (v : Vec3) : ℚ := v.dot v

/-- Cross product, used to build the exact 3x3 inverse. -/
def cross (u v : Vec3) : Vec3 :=
  ⟨u.y * v.z - u.z * v.y, u.z * v.x - u.x * v.z, u.x * v.y - u.y * v.x⟩

end Vec3

namespace IVec3

instance : Zero IVec3 := ⟨⟨0, 0, 0⟩⟩
instance : Neg IVec3 := ⟨fun v => ⟨-v.x, -v.y, -v.z⟩⟩
instance : Add IVec3 := ⟨fun u v => ⟨u.x + v.x, u.y + v.y, u.z + v.z⟩⟩
instance : Sub IVec3 := ⟨fun u v => ⟨u.x - v.x, u.y - v.y, u.z - v.z⟩⟩

/-- Cast an integer shift vector to a rational vector. -/
def toVec3 (v : IVec3) : Vec3 := ⟨(v.x : ℚ), (v.y : ℚ), (v.z : ℚ)⟩

end IVec3

/-- A 3x3 matrix given by its rows; the rows of the `cell` matrix are the
lattice vectors, as in the Python code. -/
structure Mat3 where
  r1 : Vec3
  r2 : Vec3
  r3 : Vec3
deriving DecidableEq, Repr

namespace Mat3

/-- Determinant (triple product of the rows). -/
def det (m : Mat3) : ℚ := m.r1.dot (m.r2.cross m.r3)

/-- Exact inverse of an invertible 3x3 matrix; returns the zero matrix on a
singular input.  For an invertible cell this agrees with
`np.linalg.pinv(cell)` used at `src/ase/neighborlist.py:136`; the columns of
the inverse are the reciprocal lattice vectors `b1_c, b2_c, b3_c`. -/
def inv (m : Mat3) : Mat3 :=
  let d := m.det
  if d = 0 then ⟨0, 0, 0⟩ else
    -- rows of the inverse; column c of the inverse is cross(r_a, r_b)/det
    { r1 := ⟨(m.r2.cross m.r3).x / d, (m.r3.cross m.r1).x / d,
             (m.r1.cross m.r2).x / d⟩
      r2 := ⟨(m.r2.cross m.r3).y / d, (m.r3.cross m.r1).y / d,
             (m.r1.cross m.r2).y / d⟩
      r3 := ⟨(m.r2.cross m.r3).z / d, (m.r3.cross m.r1).z / d,
             (m.r1.cross m.r2).z / d⟩ }

/-- First column of a matrix (for the inverse: the reciprocal vector
`b1_c` of `src/ase/neighborlist.py:136`). -/
def col1 (m : Mat3) : Vec3 := ⟨m.r1.x, m.r2.x, m.r3.x⟩

/-- Second column. -/
def col2 (m : Mat3) : Vec3 := ⟨m.r1.y, m.r2.y, m.r3.y⟩

/-- Third column. -/
def col3 (m : Mat3) : Vec3 := ⟨m.r1.z, m.r2.z, m.r3.z⟩

/-- Row-vector times matrix, `v · M` (numpy `v.dot(M)` for a row vector). -/
def vecMul (v : Vec3) (m : Mat3) : Vec3 :=
  (v.x • m.r1) + (v.y • m.r2) + (v.z • m.r3)

/-- Integer shift vector times the cell matrix, `S.dot(cell)` as at
`src/ase/neighborlist.py:300`. -/
def ivecMul (s : IVec3) (m : Mat3) : Vec3 := vecMul s.toVec3 m

end Mat3

/-- `ratSqrtFloor q = ⌊Real.sqrt q⌋` for `q ≥ 0`, computed exactly:
the floor of the square root of a nonnegative rational. -/
def ratSqrtFloor (q : ℚ) : ℕ := Nat.sqrt ⌊q⌋₊

/-- `ratSqrtCeil q = ⌈Real.sqrt q⌉` for `q ≥ 0`, computed exactly:
the least natural `k` with `q ≤ k²`. -/
def ratSqrtCeil (q : ℚ) : ℕ :=
  let k := ratSqrtFloor q
  if q ≤ (k : ℚ) ^ 2 then k else k + 1

/-- The strict distance test `sqrt sqd < c` of the code
(`abs_dr_n < max_cutoff`, `src/ase/neighborlist.py:305`), expressed on the
squared distance:  for `sqd ≥ 0` it holds iff `0 ≤ c ∧ sqd < c²`
(see `distLtB_iff_sqrt_lt`). -/
def distLtB (sqd c : ℚ) : Bool := decide (0 ≤ c) && decide (sqd < c ^ 2)

/-- A species identifier in a pair-cutoff dictionary key: an atomic number
or a chemical symbol (`src/ase/neighborlist.py:66`-`70`). -/
inductive Species where
  | num : ℕ → Species
  | sym : String → Species
deriving DecidableEq, Repr

/-- Modelled from the spec: the table `ase.data.atomic_numbers` (imported at
`src/ase/neighborlist.py:5` but not part of `src/`) maps chemical symbols to
atomic numbers; the spec says cutoff-dictionary keys are "unordered pairs of
species identifiers (atomic number or symbol)".  The table is truncated to
the symbols used in this development; unknown symbols yield `none`, which
models the `KeyError` swallowed by the bare `except` at
`src/ase/neighborlist.py:319`-`325`. -/
def atomicNumbers (s : String) : Option ℕ :=
  match s with
  | "H" => some 1
  | "He" => some 2
  | "C" => some 6
  | "N" => some 7
  | "O" => some 8
  | "Cu" => some 29
  | _ => none

/-- `el1 = atomic_numbers[el1]` under `try/except: pass`
(`src/ase/neighborlist.py:318`-`325`): a known symbol becomes its atomic
number, an unknown symbol (or a plain number) is left unchanged. -/
def resolveSpecies (e : Species) : Species :=
  match e with
  | .num k => .num k
  | .sym s => match atomicNumbers s with
    | some k => .num k
    | none => .sym s

/-- Elementwise numpy comparison `n[...] == el` of an atomic-number array
with a resolved species: integer equality for a number, identically false
when `el` is still an (unresolved) string. -/
def speciesEq (e : Species) (k : ℕ) : Bool :=
  match e with
  | .num n => decide (n = k)
  | .sym _ => false

/-- The per-pair cutoff assembled by the dictionary loop
(`src/ase/neighborlist.py:316`-`331`): `per_pair_cutoff_n` starts at zero
and each dictionary entry overwrites it on the pairs its mask matches
(symmetric in the two species); a pair matched by no entry keeps cutoff 0. -/
def pairCutLookup (entries : List ((Species × Species) × ℚ)) (ni nj : ℕ) : ℚ :=
  entries.foldl (fun acc e =>
    let e1 := resolveSpecies e.1.1
    let e2 := resolveSpecies e.1.2
    let m := if e1 = e2 then speciesEq e1 ni && speciesEq e2 nj
             else (speciesEq e1 ni && speciesEq e2 nj) ||
                  (speciesEq e2 ni && speciesEq e1 nj)
    if m then e.2 else acc) 0

/-- The three cutoff variants of `neighbor_list`
(`src/ase/neighborlist.py:65`-`73`): a scalar, a per-species-pair
dictionary (as an association list in iteration order), or a per-atom
array of radii. -/
inductive NLCutoff where
  | scalar : ℚ → NLCutoff
  | table : List ((Species × Species) × ℚ) → NLCutoff
  | perAtom : List ℚ → NLCutoff

/-- `np.max` over a nonempty list (0 on the empty list, but every use is
guarded by an emptiness check mirroring numpy's `ValueError`). -/
def maxQ (l : List ℚ) : ℚ :=
  match l with
  | [] => 0
  | x :: xs => xs.foldl max x

/-- The error outcomes of the modelled code paths:  `emptyReduction` is
numpy's `ValueError` for a reduction over a zero-size array
(`np.bincount(...).max()` with no atoms, `np.max` of an empty cutoff
list/dict, max displacement over zero atoms); `attributeError` is Python's
`AttributeError` when `get_neighbors` reads `self.pair_second` before any
build; `shapeMismatch` is numpy's broadcast error when position arrays of
different lengths are subtracted, and the explicit `ValueError` of
`PrimitiveNeighborList.build` for a cutoff array whose length differs from
the atom count (`src/ase/neighborlist.py:605`-`607`); `zeroDivision` is
Python's `ZeroDivisionError` at `1 / sqrt(np.dot(v, v))`
(`src/ase/neighborlist.py:630`) when a periodic axis of a singular cell
has a zero reciprocal vector. -/
inductive NLErr where
  | emptyReduction
  | attributeError
  | shapeMismatch
  | zeroDivision
deriving DecidableEq, Repr

/-- `max_cutoff` (`src/ase/neighborlist.py:143`-`150`): the dictionary
maximum, the scalar itself, or twice the maximal per-atom radius.  `np.max`
of an empty dictionary or empty array raises. -/
def maxCutoffE (cutoff : NLCutoff) : Except NLErr ℚ :=
  match cutoff with
  | .scalar c => .ok c
  | .table es =>
    match es with
    | [] => .error .emptyReduction
    | _ => .ok (maxQ (es.map (·.2)))
  | .perAtom cs =>
    match cs with
    | [] => .error .emptyReduction
    | _ => .ok (2 * maxQ cs)

/-- An atomic configuration: the caller-supplied, read-only inputs of the
enumerator (`ase.Atoms` is not part of `src/`; per the spec the positions,
the 3x3 cell matrix, the periodicity flags — and, for dictionary cutoffs,
the atomic numbers `a.numbers` — are opaque inputs). -/
structure Atoms where
  positions : List Vec3
  numbers : List ℕ
  cell : Mat3
  pbc : Bool × Bool × Bool
deriving DecidableEq, Repr

/-- Modelled from the spec: `a.get_scaled_positions(wrap=False)`
(`src/ase/neighborlist.py:161`; `ase.Atoms` is not part of `src/`) assigns
"every particle a fractional (scaled) coordinate": position times the cell
inverse. -/
def scaledPos (a : Atoms) (i : ℕ) : Vec3 :=
  Mat3.vecMul (a.positions.getD i 0) a.cell.inv

/-- Squared norm of reciprocal vector `b1_c` (so `face_dist_c = 1/sqrt` of
this, `src/ase/neighborlist.py:139`). -/
def recipSq1 (m : Mat3) : ℚ := (m.inv.col1).sq

/-- Squared norm of reciprocal vector `b2_c`. -/
def recipSq2 (m : Mat3) : ℚ := (m.inv.col2).sq

/-- Squared norm of reciprocal vector `b3_c`. -/
def recipSq3 (m : Mat3) : ℚ := (m.inv.col3).sq

/-- Bin count along one axis,
`nbins_c = np.maximum((face_dist_c/max_cutoff).astype(int), 1)`
(`src/ase/neighborlist.py:154`): since `face_dist = 1/sqrt bb`, the
truncation `int(face_dist/c)` of a positive value is
`⌊sqrt (1/(c²·bb))⌋`.  For a nonpositive cutoff or a degenerate reciprocal
vector (where the Python expression is an error or a nonpositive value
maxed up to 1) the result is normalised to 1. -/
def nbinsAxis (c bb : ℚ) : ℕ :=
  if c ≤ 0 ∨ bb ≤ 0 then 1 else max (ratSqrtFloor (1 / (c ^ 2 * bb))) 1

/-- Search radius in bins along one axis,
`ceil(max_cutoff * nbins_c / face_dist_c)` (`src/ase/neighborlist.py:158`),
written as `⌈sqrt (c²·n²·bb)⌉`; normalised to 0 outside the modelled
domain (nonpositive cutoff). -/
def ndAxisOf (c bb : ℚ) (n : ℕ) : ℕ :=
  if c ≤ 0 ∨ bb ≤ 0 then 0 else ratSqrtCeil (c ^ 2 * (n : ℚ) ^ 2 * bb)

/-- Bin count along the first axis. -/
def nbins1 (a : Atoms) (c : ℚ) : ℕ := nbinsAxis c (recipSq1 a.cell)

/-- Bin count along the second axis. -/
def nbins2 (a : Atoms) (c : ℚ) : ℕ := nbinsAxis c (recipSq2 a.cell)

/-- Bin count along the third axis. -/
def nbins3 (a : Atoms) (c : ℚ) : ℕ := nbinsAxis c (recipSq3 a.cell)

/-- Loop radius `ndx`. -/
def nd1 (a : Atoms) (c : ℚ) : ℕ := ndAxisOf c (recipSq1 a.cell) (nbins1 a c)

/-- Loop radius `ndy`. -/
def nd2 (a : Atoms) (c : ℚ) : ℕ := ndAxisOf c (recipSq2 a.cell) (nbins2 a c)

/-- Loop radius `ndz`. -/
def nd3 (a : Atoms) (c : ℚ) : ℕ := ndAxisOf c (recipSq3 a.cell) (nbins3 a c)

/-- Raw (unwrapped) bin index of a scaled coordinate,
`np.floor(spos * nbins).astype(int)` (`src/ase/neighborlist.py:162`). -/
def axisRaw (n : ℕ) (s : ℚ) : ℤ := ⌊s * (n : ℚ)⌋

/-- In-range bin index along one axis: wrapped with `divmod` for a periodic
axis, clamped with `np.clip(·, 0, nbins-1)` for a nonperiodic one
(`src/ase/neighborlist.py:164`-`169`). -/
def axisBin (p : Bool) (n : ℕ) (r : ℤ) : ℤ :=
  if p then r % (n : ℤ) else min (max r 0) ((n : ℤ) - 1)

/-- Cell shift implied by the bin wrap of a single atom: the `divmod`
quotient for a periodic axis, zero for a nonperiodic one
(`src/ase/neighborlist.py:163`-`169`). -/
def axisWrap (p : Bool) (n : ℕ) (r : ℤ) : ℤ :=
  if p then r / (n : ℤ) else 0

/-- Cartesian bin index `bin_index_ic` of atom `i`. -/
def cartBin (a : Atoms) (c : ℚ) (i : ℕ) : IVec3 :=
  ⟨axisBin a.pbc.1 (nbins1 a c) (axisRaw (nbins1 a c) (scaledPos a i).x),
   axisBin a.pbc.2.1 (nbins2 a c) (axisRaw (nbins2 a c) (scaledPos a i).y),
   axisBin a.pbc.2.2 (nbins3 a c) (axisRaw (nbins3 a c) (scaledPos a i).z)⟩

/-- Per-atom wrap shift `cell_shift_ic` of atom `i`. -/
def wrapShift (a : Atoms) (c : ℚ) (i : ℕ) : IVec3 :=
  ⟨axisWrap a.pbc.1 (nbins1 a c) (axisRaw (nbins1 a c) (scaledPos a i).x),
   axisWrap a.pbc.2.1 (nbins2 a c) (axisRaw (nbins2 a c) (scaledPos a i).y),
   axisWrap a.pbc.2.2 (nbins3 a c) (axisRaw (nbins3 a c) (scaledPos a i).z)⟩

/-- The symmetric integer range `-n .. n` of one offset loop
(`range(-ndx, ndx+1)`, `src/ase/neighborlist.py:232`-`234`). -/
def rangeSym (n : ℕ) : List ℤ :=
  (List.range (2 * n + 1)).map fun (k : ℕ) => (k : ℤ) - (n : ℤ)

/-- All bin offsets `(dx, dy, dz)` visited by the triple loop of
`src/ase/neighborlist.py:232`-`234`. -/
def offsetList (a : Atoms) (c : ℚ) : List IVec3 :=
  (rangeSym (nd3 a c)).flatMap fun dz =>
    (rangeSym (nd2 a c)).flatMap fun dy =>
      (rangeSym (nd1 a c)).map fun dx => ⟨dx, dy, dz⟩

/-- All source bins, the meshgrid of `src/ase/neighborlist.py:224`-`226`. -/
def allBins (a : Atoms) (c : ℚ) : List IVec3 :=
  (List.range (nbins3 a c)).flatMap fun b3 =>
    (List.range (nbins2 a c)).flatMap fun b2 =>
      (List.range (nbins1 a c)).map fun (b1 : ℕ) =>
        ⟨(b1 : ℤ), (b2 : ℤ), (b3 : ℤ)⟩

/-- The atoms stored in bin `B` of the padded buffer `bins_ba`
(`src/ase/neighborlist.py:177`-`204`): after removing the `-1` padding this
is exactly the set of atom indices whose Cartesian bin index is `B`. -/
def binList (a : Atoms) (c : ℚ) (B : IVec3) : List ℕ :=
  (List.range a.positions.length).filter fun i => decide (cartBin a c i = B)

/-- Neighbor bin reached from source bin `B` by offset `d`: the `divmod`
remainders of `src/ase/neighborlist.py:239`-`241`. -/
def targetBin (a : Atoms) (c : ℚ) (B d : IVec3) : IVec3 :=
  ⟨(B.x + d.x) % (nbins1 a c : ℤ),
   (B.y + d.y) % (nbins2 a c : ℤ),
   (B.z + d.z) % (nbins3 a c : ℤ)⟩

/-- Shift vector attached to the bin pair: the `divmod` quotients
`sx_xyz, sy_xyz, sz_xyz` of `src/ase/neighborlist.py:239`-`241`. -/
def divShift (a : Atoms) (c : ℚ) (B d : IVec3) : IVec3 :=
  ⟨(B.x + d.x) / (nbins1 a c : ℤ),
   (B.y + d.y) / (nbins2 a c : ℤ),
   (B.z + d.z) / (nbins3 a c : ℤ)⟩

/-- The candidate pairs accumulated by the main search loop
(`src/ase/neighborlist.py:232`-`272`): for every offset `d` and every
source bin `B`, all pairs of a first atom in `B` and a second atom in the
wrapped neighbor bin, tagged with the wrap shift of the bin pair. -/
def emitPairs (a : Atoms) (c : ℚ) : List (ℕ × ℕ × IVec3) :=
  (offsetList a c).flatMap fun d =>
    (allBins a c).flatMap fun B =>
      (binList a c B).flatMap fun i =>
        (binList a c (targetBin a c B d)).map fun j =>
          (i, j, divShift a c B d)

/-- Candidate pairs with the per-atom wrap shifts added,
`S_n += cell_shift_ic[i_n] - cell_shift_ic[j_n]`
(`src/ase/neighborlist.py:275`). -/
def rawPairs (a : Atoms) (c : ℚ) : List (ℕ × ℕ × IVec3) :=
  (emitPairs a c).map fun t =>
    (t.1, t.2.1, t.2.2 + wrapShift a c t.1 - wrapShift a c t.2.1)

/-- Removal of zero-shift self pairs unless `self_interaction`
(`src/ase/neighborlist.py:277`-`282`). -/
def selfFiltered (a : Atoms) (c : ℚ) (selfInteraction : Bool) :
    List (ℕ × ℕ × IVec3) :=
  if selfInteraction then rawPairs a c
  else (rawPairs a c).filter fun t =>
    !(decide (t.1 = t.2.1) && decide (t.2.2 = (0 : IVec3)))

/-- Removal, axis by axis, of pairs crossing a nonperiodic boundary
(`src/ase/neighborlist.py:284`-`291`). -/
def pbcFiltered (a : Atoms) (l : List (ℕ × ℕ × IVec3)) :
    List (ℕ × ℕ × IVec3) :=
  let l1 := if a.pbc.1 then l else l.filter fun t => decide (t.2.2.x = 0)
  let l2 := if a.pbc.2.1 then l1 else l1.filter fun t => decide (t.2.2.y = 0)
  if a.pbc.2.2 then l2 else l2.filter fun t => decide (t.2.2.z = 0)

/-- Sort of the pair list by first atom index, `np.argsort(i_n)`
(`src/ase/neighborlist.py:293`-`297`).  numpy's default argsort is
unstable, so only the keys are specified by the source; embedded as an
insertion sort on the same key. -/
def sortPairs (l : List (ℕ × ℕ × IVec3)) : List (ℕ × ℕ × IVec3) :=
  l.insertionSort fun s t => s.1 ≤ t.1

/-- One returned pair record: first index `i`, second index `j`, shift `S`,
displacement vector `D` and squared distance (the code stores
`abs_dr_n = sqrt sqd`). -/
structure PairRec where
  fst : ℕ
  snd : ℕ
  shift : IVec3
  disp : Vec3
  sqd : ℚ
deriving DecidableEq, Repr

/-- The full record of one candidate pair `(i, j, S)`:
`dr_nc = a.positions[j_n] - a.positions[i_n] + S_n.dot(a.cell)` and its
squared norm (`src/ase/neighborlist.py:299`-`301`). -/
def pairRecOf (a : Atoms) (t : ℕ × ℕ × IVec3) : PairRec :=
  let D := (a.positions.getD t.2.1 0) - (a.positions.getD t.1 0) +
    Mat3.ivecMul t.2.2 a.cell
  ⟨t.1, t.2.1, t.2.2, D, D.sq⟩

/-- Annotation of the surviving candidates with displacement vectors and
(squared) distances (`src/ase/neighborlist.py:299`-`301`). -/
def toRecs (a : Atoms) (l : List (ℕ × ℕ × IVec3)) : List PairRec :=
  l.map (pairRecOf a)

/-- The coarse cutoff filter `abs_dr_n < max_cutoff`
(`src/ase/neighborlist.py:303`-`310`). -/
def maxCutFiltered (c : ℚ) (l : List PairRec) : List PairRec :=
  l.filter fun p => distLtB p.sqd c

/-- The exact cutoff policy (`src/ase/neighborlist.py:312`-`344`): nothing
more for a scalar cutoff; the per-species-pair lookup for a dictionary; the
sum of the two atomic radii for a per-atom array.  The per-atom branch
reads `cs.getD _ 0`: this is faithful to `cutoff[i_n] + cutoff[j_n]`
(`src/ase/neighborlist.py:339`) only while every surviving index is below
`cs.length` — numpy raises `IndexError` on a shorter array — so theorems
about the per-atom policy carry the length hypothesis
`cs.length = a.positions.length`. -/
def cutoffFiltered (cutoff : NLCutoff) (a : Atoms) (l : List PairRec) :
    List PairRec :=
  match cutoff with
  | .scalar _ => l
  | .table es => l.filter fun p =>
      distLtB p.sqd (pairCutLookup es (a.numbers.getD p.fst 0)
        (a.numbers.getD p.snd 0))
  | .perAtom cs => l.filter fun p =>
      distLtB p.sqd (cs.getD p.fst 0 + cs.getD p.snd 0)

/-- The enumerator `neighbor_list` (`src/ase/neighborlist.py:39`-`364`),
returning the full pair records (the `quantities` string of the original
merely selects projections of these).  Error cases: `np.max` of an empty
cutoff dictionary/array (`src/ase/neighborlist.py:144`,`150`) and
`np.bincount(bin_index_i).max()` over zero atoms
(`src/ase/neighborlist.py:183`) raise numpy `ValueError`s. -/
def neighbor_list (a : Atoms) (cutoff : NLCutoff) (selfInteraction : Bool) :
    Except NLErr (List PairRec) :=
  match maxCutoffE cutoff with
  | .error e => .error e
  | .ok c =>
    if a.positions.length = 0 then .error .emptyReduction
    else .ok (cutoffFiltered cutoff a (maxCutFiltered c (toRecs a
      (sortPairs (pbcFiltered a (selfFiltered a c selfInteraction))))))

/-- One simultaneous backfill pass of the `while` loop of
`src/ase/neighborlist.py:394`-`397`: every `-1` entry is replaced by its
right neighbor's (old) value, `s[m] = s[arange(nat+1)[m]+1]`. -/
def passFill : List ℤ → List ℤ
  | [] => []
  | v :: rest => (if v = -1 then rest.headD (-1) else v) :: passFill rest

/-- The `while m.any()` backfill loop of `src/ase/neighborlist.py:394`-`397`
with explicit fuel: it stops as soon as no `-1` entry is left, and the fuel
`nat+1` passed by `first_neighbors` is proved sufficient below (each pass
fills at least the rightmost `-1`, and the last entry is never `-1`), so
the fueled recursion equals the source's unbounded loop. -/
def backfill : ℕ → List ℤ → List ℤ
  | 0, s => s
  | fuel + 1, s => if (-1 : ℤ) ∈ s then backfill fuel (passFill s) else s

/-- The vectorized boundary assignment
`s[i[1:][m]] = (np.arange(len(m))+1)[m]` of `src/ase/neighborlist.py:393`:
for every position `p+1` whose first index differs from its predecessor's,
`s[i[p+1]] = p+1`. -/
def boundarySet (i : List ℕ) (s : List ℤ) : List ℤ :=
  (List.range (i.length - 1)).foldl
    (fun t p => if i.getD p 0 ≠ i.getD (p + 1) 0
      then t.set (i.getD (p + 1) 0) ((p : ℤ) + 1) else t) s

/-- The CSR index builder `first_neighbors`
(`src/ase/neighborlist.py:367`-`398`). -/
def first_neighbors (nat : ℕ) (i : List ℕ) : List ℤ :=
  if i.length = 0 then List.replicate (nat + 1) 0
  else
    let s0 : List ℤ := List.replicate (nat + 1) (-1)
    let s1 := s0.set (i.headD 0) 0
    let s2 := s1.set nat (i.length : ℤ)
    backfill (nat + 1) (boundarySet i s2)

/-- Number of neighbor-list entries with first index below `k`; the CSR
index array of a sorted list is exactly this function of the slot
(theorem `first_neighbors_eq_countBelow`). -/
def countBelow (i : List ℕ) (k : ℕ) : ℕ :=
  i.countP fun x => decide (x < k)

/-- Prefix of the `boundarySet` fold after `m` of its steps (analysis
helper: `boundarySet i s = boundaryPrefix i (i.length - 1) s`). -/
def boundaryPrefix (i : List ℕ) (m : ℕ) (s : List ℤ) : List ℤ :=
  (List.range m).foldl
    (fun tt p => if i.getD p 0 ≠ i.getD (p + 1) 0
      then tt.set (i.getD (p + 1) 0) ((p : ℤ) + 1) else tt) s

/-- Number of `-1` sentinel slots, the quantity the `while m.any()` loop of
`src/ase/neighborlist.py:394` drives to zero. -/
def countNeg (s : List ℤ) : ℕ :=
  s.countP fun v => decide (v = -1)

/-- The state snapshot taken by `NeighborList.build`
(`src/ase/neighborlist.py:459`-`488`): `self.pbc`, `self.cell`,
`self.positions`, the (parallel) pair arrays `pair_first`, `pair_second`,
`offset_vec` (here one list of triples), and the CSR index
`self.first_neigh`. -/
structure Snapshot where
  pbc : Bool × Bool × Bool
  cell : Mat3
  positions : List Vec3
  pairs : List (ℕ × ℕ × IVec3)
  firstNeigh : List ℤ
deriving DecidableEq, Repr

/-- The stateful `NeighborList` object (`src/ase/neighborlist.py:401`-`508`).
Attributes that only exist after the first `build` (`self.pbc`,
`self.pair_first`, ...) are collected in the optional `snap`. -/
structure NeighborList where
  cutoffs : List ℚ
  skin : ℚ
  sortedFlag : Bool
  selfInteraction : Bool
  bothways : Bool
  nupdates : ℕ
  snap : Option Snapshot
deriving DecidableEq, Repr

/-- `NeighborList.__init__` (`src/ase/neighborlist.py:429`-`438`):
`self.cutoffs = np.asarray(cutoffs) + skin`, counters zeroed, nothing
built. -/
def NeighborList.init (cutoffs : List ℚ) (skin : ℚ)
    (sortedFlag selfInteraction bothways : Bool) : NeighborList :=
  { cutoffs := cutoffs.map (· + skin)
    skin := skin
    sortedFlag := sortedFlag
    selfInteraction := selfInteraction
    bothways := bothways
    nupdates := 0
    snap := none }

/-- The half-list mask of `NeighborList.build`
(`src/ase/neighborlist.py:467`-`475`): keep a pair iff
`(i ≤ j and S = 0) or S.x > 0 or (S.x = 0 and (S.y > 0 or (S.y = 0 and
S.z > 0)))`. -/
def canonicalKeepB (t : ℕ × ℕ × IVec3) : Bool :=
  (decide (t.1 ≤ t.2.1) && decide (t.2.2 = (0 : IVec3))) ||
  (decide (0 < t.2.2.x) ||
    (decide (t.2.2.x = 0) && (decide (0 < t.2.2.y) ||
      (decide (t.2.2.y = 0) && decide (0 < t.2.2.z)))))

/-- `NeighborList.build` (`src/ase/neighborlist.py:456`-`490`): snapshot the
configuration, run `neighbor_list('ijS', atoms, self.cutoffs,
self_interaction)`, optionally halve with the canonical mask, optionally
sort by `pair_first * len(pair_first) + pair_second` (numpy argsort:
unstable, so embedded as an insertion sort on that key), build the CSR
index, bump `nupdates`. -/
def NeighborList.build (nl : NeighborList) (a : Atoms) :
    Except NLErr NeighborList :=
  match neighbor_list a (.perAtom nl.cutoffs) nl.selfInteraction with
  | .error e => .error e
  | .ok out =>
    let pairs0 := out.map fun p => (p.fst, p.snd, p.shift)
    let pairs1 := if nl.bothways then pairs0 else pairs0.filter canonicalKeepB
    let pairs2 := if nl.sortedFlag then
        pairs1.insertionSort fun s t =>
          s.1 * pairs1.length + s.2.1 ≤ t.1 * pairs1.length + t.2.1
      else pairs1
    let fn := first_neighbors a.positions.length (pairs2.map (·.1))
    .ok { nl with
      nupdates := nl.nupdates + 1
      snap := some ⟨a.pbc, a.cell, a.positions, pairs2, fn⟩ }

/-- The pair-triple list `NeighborList.build` caches (analysis helper: the
`pairs2` stage of `build`, so that `build`'s result can be written as one
record). -/
def buildPairs (nl : NeighborList) (out : List PairRec) :
    List (ℕ × ℕ × IVec3) :=
  let pairs0 := out.map fun p => (p.fst, p.snd, p.shift)
  let pairs1 := if nl.bothways then pairs0 else pairs0.filter canonicalKeepB
  if nl.sortedFlag then
    pairs1.insertionSort fun s t =>
      s.1 * pairs1.length + s.2.1 ≤ t.1 * pairs1.length + t.2.1
  else pairs1

/-- `((self.positions - atoms.positions)**2).sum(1).max()`
(`src/ase/neighborlist.py:449`): the maximal squared displacement;
subtracting arrays of different lengths is a numpy broadcast error, the
reduction over zero atoms a `ValueError`. -/
def maxSqDisp (old new : List Vec3) : Except NLErr ℚ :=
  if old.length ≠ new.length then .error .shapeMismatch
  else
    match (old.zip new).map (fun pq => (pq.1 - pq.2).sq) with
    | [] => .error .emptyReduction
    | x :: xs => .ok (xs.foldl max x)

/-- `NeighborList.update` (`src/ase/neighborlist.py:440`-`454`): build on
first call; afterwards rebuild iff `pbc` or `cell` changed or some atom's
squared displacement exceeds `skin²` (the `or` chain short-circuits, so
the displacement is only computed when `pbc` and `cell`[] are unchanged).
Returns the rebuilt flag and the new state. -/
def NeighborList.update (nl : NeighborList) (a : Atoms) :
    Except NLErr (Bool × NeighborList) :=
  if nl.nupdates = 0 then
    match nl.build a with
    | .error e => .error e
    | .ok nl' => .ok (true, nl')
  else
    match nl.snap with
    | none => .error .attributeError
    | some sn =>
      if sn.pbc ≠ a.pbc then
        match nl.build a with
        | .error e => .error e
        | .ok nl' => .ok (true, nl')
      else if sn.cell ≠ a.cell then
        match nl.build a with
        | .error e => .error e
        | .ok nl' => .ok (true, nl')
      else
        match maxSqDisp sn.positions a.positions with
        | .error e => .error e
        | .ok md =>
          if md > nl.skin ^ 2 then
            match nl.build a with
            | .error e => .error e
            | .ok nl' => .ok (true, nl')
          else .ok (false, nl)

/-- `NeighborList.get_neighbors` (`src/ase/neighborlist.py:492`-`508`):
slice the second indices and offsets of atom `k` out of the CSR ranges.
Before the first build the attributes `self.pair_second`,
`self.first_neigh`, `self.offset_vec` do not exist and Python raises
`AttributeError`. -/
def NeighborList.get_neighbors (nl : NeighborList) (k : ℕ) :
    Except NLErr (List ℕ × List IVec3) :=
  match nl.snap with
  | none => .error .attributeError
  | some sn =>
    let lo := (sn.firstNeigh.getD k 0).toNat
    let hi := (sn.firstNeigh.getD (k + 1) 0).toNat
    let seg := (sn.pairs.drop lo).take (hi - lo)
    .ok (seg.map (·.2.1), seg.map (·.2.2))

/-- Truncation toward zero (Python `int(...)`) of `x * sqrt q` for
`q ≥ 0`, computed exactly through the integer square root
(`x * sqrt q = sign x * sqrt(x² q)`). -/
def intTruncSqrt (x : ℚ) (q : ℚ) : ℤ :=
  if 0 ≤ x then (ratSqrtFloor (x ^ 2 * q) : ℤ)
  else -(ratSqrtFloor (x ^ 2 * q) : ℤ)

/-- Python `range(lo, hi + 1)` over integers (empty when `hi < lo`). -/
def rangeZ (lo hi : ℤ) : List ℤ :=
  (List.range (hi + 1 - lo).toNat).map fun (k : ℕ) => lo + (k : ℤ)

/-- The attributes `PrimitiveNeighborList.build` sets
(`src/ase/neighborlist.py:601`-`603`, `642`-`643`): `self.pbc`,
`self.cell`, `self.coordinates` and the per-atom `self.neighbors` /
`self.displacements` lists. -/
structure PrimSnapshot where
  pbc : Bool × Bool × Bool
  cell : Mat3
  coordinates : List Vec3
  neighbors : List (List ℕ)
  displacements : List (List IVec3)
deriving DecidableEq, Repr

/-- The stateful `PrimitiveNeighborList`
(`src/ase/neighborlist.py:560`-`717`).  Attributes that only exist after
the first `build` live in the optional `snap`. -/
structure PrimitiveNeighborList where
  cutoffs : List ℚ
  skin : ℚ
  sortedFlag : Bool
  selfInteraction : Bool
  bothways : Bool
  nupdates : ℕ
  use_scaled_positions : Bool
  nneighbors : ℕ
  npbcneighbors : ℕ
  snap : Option PrimSnapshot
deriving DecidableEq, Repr

/-- `PrimitiveNeighborList.__init__` (`src/ase/neighborlist.py:567`-`577`):
`self.cutoffs = np.asarray(cutoffs) + skin`, counters zeroed, nothing
built. -/
def PrimitiveNeighborList.init (cutoffs : List ℚ) (skin : ℚ)
    (sortedFlag selfInteraction bothways use_scaled_positions : Bool) :
    PrimitiveNeighborList :=
  { cutoffs := cutoffs.map (· + skin)
    skin := skin
    sortedFlag := sortedFlag
    selfInteraction := selfInteraction
    bothways := bothways
    nupdates := 0
    use_scaled_positions := use_scaled_positions
    nneighbors := 0
    npbcneighbors := 0
    snap := none }

/-- The search-box bound `N[i]` of `src/ase/neighborlist.py:625`-`634`
for one axis: `int(2 * rcmax / h) + 1` with `h = 1/sqrt(v.v)` on a
periodic axis, `0` on a nonperiodic one. -/
def primAxisN (p : Bool) (rcmax vsq : ℚ) : ℤ :=
  if p then intTruncSqrt (2 * rcmax) vsq + 1 else 0

/-- Per-axis `scaled0[:, i] %= 1.0` (`src/ase/neighborlist.py:628`): the
Python float modulus maps `s` to `s - ⌊s⌋ ∈ [0, 1)` on each periodic
axis and leaves the others unchanged. -/
def primWrap (pbc : Bool × Bool × Bool) (s : Vec3) : Vec3 :=
  ⟨if pbc.1 then s.x - (⌊s.x⌋ : ℚ) else s.x,
   if pbc.2.1 then s.y - (⌊s.y⌋ : ℚ) else s.y,
   if pbc.2.2 then s.z - (⌊s.z⌋ : ℚ) else s.z⟩

/-- Componentwise `.round().astype(int)` of
`src/ase/neighborlist.py:636`; every component it is applied to is an
exact integer (`-⌊s⌋` on wrapped axes, `0` elsewhere), so numpy's
half-to-even tie rule and Lean's `round` agree. -/
def roundVec (v : Vec3) : IVec3 := ⟨round v.x, round v.y, round v.z⟩

/-- The loop cells of `src/ase/neighborlist.py:645`-`649`: `n1` from `0`
to `N[0]`, `n2` and `n3` symmetric, with the lower half of the `n1 = 0`
plane skipped. -/
def primCells (N1 N2 N3 : ℤ) : List IVec3 :=
  (rangeZ 0 N1).flatMap fun n1 =>
    (rangeZ (-N2) N2).flatMap fun n2 =>
      (rangeZ (-N3) N3).filterMap fun n3 =>
        if n1 = 0 ∧ (n2 < 0 ∨ (n2 = 0 ∧ n3 < 0)) then none
        else some ⟨n1, n2, n3⟩

/-- The candidate second indices for atom `a` in loop cell `c`
(`src/ase/neighborlist.py:650`-`659`): every atom strictly within the
pairwise cutoff sum, with the `i >= a` / `i > a` filter on the zero
cell. -/
def primI (cutoffs : List ℚ) (pos0 : List Vec3) (cell : Mat3)
    (selfInteraction : Bool) (c : IVec3) (a : ℕ) : List ℕ :=
  let base := (List.range pos0.length).filter fun b =>
    decide ((pos0.getD b 0 + Mat3.ivecMul c cell - pos0.getD a 0).sq <
      (cutoffs.getD b 0 + cutoffs.getD a 0) ^ 2)
  if c = (0 : IVec3) then
    if selfInteraction then base.filter fun b => decide (a ≤ b)
    else base.filter fun b => decide (a < b)
  else base

/-- Atom `a`'s raw neighbor list: the per-cell candidates concatenated in
loop order (`src/ase/neighborlist.py:660`-`662`). -/
def primNbr (cutoffs : List ℚ) (pos0 : List Vec3) (cell : Mat3)
    (si : Bool) (cells : List IVec3) (a : ℕ) : List ℕ :=
  cells.flatMap fun c => primI cutoffs pos0 cell si c a

/-- Atom `a`'s raw displacement rows `(n1,n2,n3) + offsets[i] -
offsets[a]` (`src/ase/neighborlist.py:663`-`668`). -/
def primDisp (cutoffs : List ℚ) (pos0 : List Vec3) (cell : Mat3)
    (si : Bool) (offsets : List IVec3) (cells : List IVec3) (a : ℕ) :
    List IVec3 :=
  cells.flatMap fun c =>
    (primI cutoffs pos0 cell si c a).map fun b =>
      c + offsets.getD b 0 - offsets.getD a 0

/-- The `bothways` symmetrization of `src/ase/neighborlist.py:670`-`683`:
append to each atom `b` the reversed entries `(a, -disp)` collected in
ascending order of `a`. -/
def primBoth (natoms : ℕ) (nbrs : List (List ℕ))
    (disps : List (List IVec3)) : List (List ℕ) × List (List IVec3) :=
  ((List.range natoms).map fun b =>
    nbrs.getD b [] ++ (List.range natoms).flatMap fun a =>
      ((nbrs.getD a []).zip (disps.getD a [])).filterMap fun bd =>
        if bd.1 = b then some a else none,
   (List.range natoms).map fun b =>
    disps.getD b [] ++ (List.range natoms).flatMap fun a =>
      ((nbrs.getD a []).zip (disps.getD a [])).filterMap fun bd =>
        if bd.1 = b then some (-bd.2) else none)

/-- One step of the `sorted` rearrangement of
`src/ase/neighborlist.py:685`-`698`: entries `b < a` of atom `a` are
pushed to atom `b` (as `(a, -offset)`) and removed from atom `a`. -/
def primSortStep (st : List (List ℕ) × List (List IVec3)) (a : ℕ) :
    List (List ℕ) × List (List IVec3) :=
  let pairs := (st.1.getD a []).zip (st.2.getD a [])
  let moved := pairs.filter fun bd => decide (bd.1 < a)
  let kept := pairs.filter fun bd => decide (¬ bd.1 < a)
  let pushed := moved.foldl (fun st2 bd =>
    (st2.1.set bd.1 (st2.1.getD bd.1 [] ++ [a]),
     st2.2.set bd.1 (st2.2.getD bd.1 [] ++ [-bd.2]))) st
  (pushed.1.set a (kept.map (·.1)), pushed.2.set a (kept.map (·.2)))

/-- The full `sorted` rearrangement: the sequential loop over atoms. -/
def primSorted (natoms : ℕ) (st : List (List ℕ) × List (List IVec3)) :
    List (List ℕ) × List (List IVec3) :=
  (List.range natoms).foldl primSortStep st

/-- `PrimitiveNeighborList.build` (`src/ase/neighborlist.py:595`-`700`):
snapshot `pbc`/`cell`/`coordinates`, raise `ValueError` when the cutoff
array length differs from the atom count (line 605), compute the
reciprocal box bounds (`ZeroDivisionError` at `1/sqrt(v.v)` for a zero
reciprocal vector of a periodic axis, line 630), wrap the scaled
positions, run the triple loop, then the optional `bothways` and
`sorted` post-passes, and bump `nupdates`. -/
def PrimitiveNeighborList.build (pnl : PrimitiveNeighborList)
    (pbc : Bool × Bool × Bool) (cell : Mat3) (coords : List Vec3) :
    Except NLErr PrimitiveNeighborList :=
  if pnl.cutoffs.length ≠ coords.length then .error .shapeMismatch
  else
    let rcmax : ℚ := if 0 < pnl.cutoffs.length then maxQ pnl.cutoffs else 0
    let icell := cell.inv
    let positions := if pnl.use_scaled_positions
      then coords.map fun s => Mat3.vecMul s cell
      else coords
    let scaled := if pnl.use_scaled_positions
      then coords
      else coords.map fun p => Mat3.vecMul p icell
    if (pbc.1 ∧ icell.col1.sq = 0) ∨ (pbc.2.1 ∧ icell.col2.sq = 0) ∨
        (pbc.2.2 ∧ icell.col3.sq = 0) then .error .zeroDivision
    else
      let N1 := primAxisN pbc.1 rcmax icell.col1.sq
      let N2 := primAxisN pbc.2.1 rcmax icell.col2.sq
      let N3 := primAxisN pbc.2.2 rcmax icell.col3.sq
      let scaled0 := scaled.map (primWrap pbc)
      let offsets := (scaled0.zip scaled).map fun p => roundVec (p.1 - p.2)
      let pos0 := (positions.zip offsets).map fun p =>
        p.1 + Mat3.ivecMul p.2 cell
      let natoms := positions.length
      let cells := primCells N1 N2 N3
      let nbrs0 := (List.range natoms).map
        (primNbr pnl.cutoffs pos0 cell pnl.selfInteraction cells)
      let disps0 := (List.range natoms).map
        (primDisp pnl.cutoffs pos0 cell pnl.selfInteraction offsets cells)
      let st1 := if pnl.bothways then primBoth natoms nbrs0 disps0
        else (nbrs0, disps0)
      let st2 := if pnl.sortedFlag then primSorted natoms st1 else st1
      .ok { pnl with
        nupdates := pnl.nupdates + 1
        nneighbors := (nbrs0.map List.length).sum
        npbcneighbors := (disps0.map fun l =>
          l.countP fun d => decide (d ≠ (0 : IVec3))).sum
        snap := some ⟨pbc, cell, coords, st2.1, st2.2⟩ }

/-- `PrimitiveNeighborList.update` (`src/ase/neighborlist.py:579`-`593`):
build on the first call and report `True`; afterwards rebuild iff `pbc`
or `cell` changed or some atom's squared displacement exceeds `skin²`
(the Python `or` chain short-circuits, so the displacement reduction only
runs when `pbc` and `cell` are unchanged).  Returns the rebuilt flag and
the new state. -/
def PrimitiveNeighborList.update (pnl : PrimitiveNeighborList)
    (pbc : Bool × Bool × Bool) (cell : Mat3) (coords : List Vec3) :
    Except NLErr (Bool × PrimitiveNeighborList) :=
  if pnl.nupdates = 0 then
    match pnl.build pbc cell coords with
    | .error e => .error e
    | .ok st => .ok (true, st)
  else
    match pnl.snap with
    | none => .error .attributeError
    | some sn =>
      if sn.pbc ≠ pbc then
        match pnl.build pbc cell coords with
        | .error e => .error e
        | .ok st => .ok (true, st)
      else if sn.cell ≠ cell then
        match pnl.build pbc cell coords with
        | .error e => .error e
        | .ok st => .ok (true, st)
      else
        match maxSqDisp sn.coordinates coords with
        | .error e => .error e
        | .ok md =>
          if md > pnl.skin ^ 2 then
            match pnl.build pbc cell coords with
            | .error e => .error e
            | .ok st => .ok (true, st)
          else .ok (false, pnl)

/-- The spec's wording of the half-list rule for a nonzero shift: "the
first nonzero component of its shift vector is positive". -/
def firstNonzeroPos (S : IVec3) : Prop :=
  (S.x ≠ 0 ∧ 0 < S.x) ∨ (S.x = 0 ∧ S.y ≠ 0 ∧ 0 < S.y) ∨
    (S.x = 0 ∧ S.y = 0 ∧ 0 < S.z)

instance (S : IVec3) : Decidable (firstNonzeroPos S) := by
  unfold firstNonzeroPos; infer_instance

/-- The spec's canonical half-list rule (claim C5): a zero-shift pair is
kept iff `i ≤ j`; a nonzero-shift pair is kept iff the first nonzero
component of its shift is positive. -/
def specKeep (i j : ℕ) (S : IVec3) : Prop :=
  (S = 0 ∧ i ≤ j) ∨ (S ≠ 0 ∧ firstNonzeroPos S)

instance (i j : ℕ) (S : IVec3) : Decidable (specKeep i j S) := by
  unfold specKeep; infer_instance

/-- A shift vector is admissible for the periodicity flags if it is zero
along every nonperiodic axis. -/
def pbcOKS (a : Atoms) (S : IVec3) : Prop :=
  (a.pbc.1 = false → S.x = 0) ∧ (a.pbc.2.1 = false → S.y = 0) ∧
    (a.pbc.2.2 = false → S.z = 0)

instance (a : Atoms) (S : IVec3) : Decidable (pbcOKS a S) := by
  unfold pbcOKS; infer_instance

/-- The mirror image of a pair record: `(j, i, -S)` with the opposite
displacement and the same (squared) distance. -/
def PairRec.mirror (p : PairRec) : PairRec :=
  ⟨p.snd, p.fst, -p.shift, -p.disp, p.sqd⟩

/-- Test for the zero-shift self pair `(i, i, 0)` on a candidate triple. -/
def isSelfPair (i : ℕ) (t : ℕ × ℕ × IVec3) : Bool :=
  decide (t.1 = i) && decide (t.2.1 = i) && decide (t.2.2 = (0 : IVec3))

/-- Test for the zero-shift self pair `(i, i, 0)` on a returned record. -/
def recIsSelfPair (i : ℕ) (p : PairRec) : Bool :=
  decide (p.fst = i) && decide (p.snd = i) && decide (p.shift = (0 : IVec3))

deriving instance DecidableEq for Except

/-- A cubic `3×3×3` cell, used by the concrete evaluations below. -/
def cell3 : Mat3 := ⟨⟨3, 0, 0⟩, ⟨0, 3, 0⟩, ⟨0, 0, 3⟩⟩

/-- The empty configuration: zero atoms, nonperiodic cubic cell. -/
def A0 : Atoms := ⟨[], [], cell3, (false, false, false)⟩

/-- One hydrogen atom at the origin, nonperiodic cubic cell. -/
def A1 : Atoms := ⟨[⟨0, 0, 0⟩], [1], cell3, (false, false, false)⟩

/-- Two hydrogen atoms at distance `2` along `z`, nonperiodic cubic
cell. -/
def A2 : Atoms :=
  ⟨[⟨0, 0, 0⟩, ⟨0, 0, 2⟩], [1, 1], cell3, (false, false, false)⟩

/-- `A2` with its second atom moved up by `1/4` (a sub-skin move). -/
def B2 : Atoms :=
  ⟨[⟨0, 0, 0⟩, ⟨0, 0, 9/4⟩], [1, 1], cell3, (false, false, false)⟩

/-- The output of `neighbor_list A2 (.scalar 3) false`. -/
def outA2 : List PairRec :=
  [⟨0, 1, 0, ⟨0, 0, 2⟩, 4⟩, ⟨1, 0, 0, ⟨0, 0, -2⟩, 4⟩]

/-- The output of `neighbor_list A2 (.scalar 3) true`. -/
def outA2T : List PairRec :=
  [⟨0, 0, 0, ⟨0, 0, 0⟩, 0⟩, ⟨0, 1, 0, ⟨0, 0, 2⟩, 4⟩,
   ⟨1, 0, 0, ⟨0, 0, -2⟩, 4⟩, ⟨1, 1, 0, ⟨0, 0, 0⟩, 0⟩]

/-- The first record of `outA2`. -/
def pA : PairRec := ⟨0, 1, 0, ⟨0, 0, 2⟩, 4⟩

/-- The snapshot `build` takes of `A2` with per-atom radii `3/2` (half
list, unsorted): one canonical pair and its CSR index. -/
def snA2 : Snapshot :=
  ⟨(false, false, false), cell3, [⟨0, 0, 0⟩, ⟨0, 0, 2⟩],
   [(0, 1, 0)], [0, 1, 1]⟩

/-- A `NeighborList` over two radii `3/2` with zero skin, half list. -/
def nl5 : NeighborList := NeighborList.init [3/2, 3/2] 0 false false false

/-- The state `nl5.build A2` produces. -/
def nl5' : NeighborList :=
  ⟨[3/2, 3/2], 0, false, false, false, 1, some snA2⟩

/-- The state `(NeighborList.init [3/2, 3/2] 1 false false false).build A2`
produces (radii `3/2`, skin `1`, effective cutoffs `5/2`). -/
def nl6' : NeighborList :=
  ⟨[5/2, 5/2], 1, false, false, false, 1, some snA2⟩

/-- A hydrogen–hydrogen pair-cutoff table with cutoff `3`. -/
def esH : List ((Species × Species) × ℚ) :=
  [((Species.sym "H", Species.sym "H"), 3)]

/-! ## Lemmas: vector and matrix algebra -/

namespace Vec3

@[simp] lemma add_x (u v : Vec3) : (u + v).x = u.x + v.x := rfl
@[simp] lemma add_y (u v : Vec3) : (u + v).y = u.y + v.y := rfl
@[simp] lemma add_z (u v : Vec3) : (u + v).z = u.z + v.z := rfl
@[simp] lemma sub_x (u v : Vec3) : (u - v).x = u.x - v.x := rfl
@[simp] lemma sub_y (u v : Vec3) : (u - v).y = u.y - v.y := rfl
@[simp] lemma sub_z (u v : Vec3) : (u - v).z = u.z - v.z := rfl
@[simp] lemma neg_x (v : Vec3) : (-v).x = -v.x := rfl
@[simp] lemma neg_y (v : Vec3) : (-v).y = -v.y := rfl
@[simp] lemma neg_z (v : Vec3) : (-v).z = -v.z := rfl
@[simp] lemma smul_x (c : ℚ) (v : Vec3) : (c • v).x = c * v.x := rfl
@[simp] lemma smul_y (c : ℚ) (v : Vec3) : (c • v).y = c * v.y := rfl
@[simp] lemma smul_z (c : ℚ) (v : Vec3) : (c • v).z = c * v.z := rfl
@[simp] lemma zero_x : (0 : Vec3).x = 0 := rfl
@[simp] lemma zero_y : (0 : Vec3).y = 0 := rfl
@[simp] lemma zero_z : (0 : Vec3).z = 0 := rfl

lemma ext' (a b : Vec3) (hx : a.x = b.x) (hy : a.y = b.y) (hz : a.z = b.z) :
    a = b := by
  cases a; cases b; simp_all

lemma sq_nonneg' (v : Vec3) : 0 ≤ v.sq := by
  have hx := mul_self_nonneg v.x
  have hy := mul_self_nonneg v.y
  have hz := mul_self_nonneg v.z
  simp only [sq, dot]
  linarith

lemma sq_neg (v : Vec3) : (-v).sq = v.sq := by
  simp only [sq, dot, neg_x, neg_y, neg_z]; ring

lemma sq_add_expand (u v : Vec3) :
    (u + v).sq = u.sq + 2 * u.dot v + v.sq := by
  simp only [sq, dot, add_x, add_y, add_z]; ring

/-- Cauchy–Schwarz for rational 3-vectors, via the Lagrange identity. -/
lemma dot_sq_le_sq_mul_sq (u v : Vec3) : (u.dot v) ^ 2 ≤ u.sq * v.sq := by
  simp only [sq, dot]
  nlinarith [mul_self_nonneg (u.x * v.y - u.y * v.x),
    mul_self_nonneg (u.x * v.z - u.z * v.x),
    mul_self_nonneg (u.y * v.z - u.z * v.y)]

/-- Squared form of the triangle inequality: if `|u| < a` and `|v| < b`
(strictly, in squared form) then `|u + v| < a + b`. -/
lemma sq_add_lt (u v : Vec3) (a b : ℚ) (ha : 0 ≤ a) (hb : 0 ≤ b)
    (hu : u.sq < a ^ 2) (hv : v.sq < b ^ 2) : (u + v).sq < (a + b) ^ 2 := by
  have hcs := dot_sq_le_sq_mul_sq u v
  have husq := u.sq_nonneg'
  have hvsq := v.sq_nonneg'
  have ha2 : 0 < a ^ 2 := lt_of_le_of_lt husq hu
  have hb2 : 0 < b ^ 2 := lt_of_le_of_lt hvsq hv
  have h4 : u.sq * v.sq < a ^ 2 * b ^ 2 := by nlinarith
  have h5 : (u.dot v) ^ 2 < (a * b) ^ 2 := by nlinarith
  have hab : 0 ≤ a * b := mul_nonneg ha hb
  have hdot : u.dot v < a * b := by nlinarith
  rw [sq_add_expand]
  nlinarith

lemma dot_add_left (u v w : Vec3) : (u + v).dot w = u.dot w + v.dot w := by
  simp only [dot, add_x, add_y, add_z]; ring

lemma dot_sub_left (u v w : Vec3) : (u - v).dot w = u.dot w - v.dot w := by
  simp only [dot, sub_x, sub_y, sub_z]; ring

end Vec3

namespace IVec3

@[simp] lemma zero_ix : (0 : IVec3).x = 0 := rfl
@[simp] lemma zero_iy : (0 : IVec3).y = 0 := rfl
@[simp] lemma zero_iz : (0 : IVec3).z = 0 := rfl
@[simp] lemma neg_ix (v : IVec3) : (-v).x = -v.x := rfl
@[simp] lemma neg_iy (v : IVec3) : (-v).y = -v.y := rfl
@[simp] lemma neg_iz (v : IVec3) : (-v).z = -v.z := rfl
@[simp] lemma add_ix (u v : IVec3) : (u + v).x = u.x + v.x := rfl
@[simp] lemma add_iy (u v : IVec3) : (u + v).y = u.y + v.y := rfl
@[simp] lemma add_iz (u v : IVec3) : (u + v).z = u.z + v.z := rfl
@[simp] lemma sub_ix (u v : IVec3) : (u - v).x = u.x - v.x := rfl
@[simp] lemma sub_iy (u v : IVec3) : (u - v).y = u.y - v.y := rfl
@[simp] lemma sub_iz (u v : IVec3) : (u - v).z = u.z - v.z := rfl

lemma ext_iff' (u v : IVec3) : u = v ↔ u.x = v.x ∧ u.y = v.y ∧ u.z = v.z := by
  constructor
  · intro h; subst h; exact ⟨rfl, rfl, rfl⟩
  · rintro ⟨h1, h2, h3⟩; cases u; cases v; simp_all

lemma neg_neg' (v : IVec3) : - -v = v := by
  cases v; simp [ext_iff']

@[simp] lemma neg_eq_zero_iff (v : IVec3) : -v = 0 ↔ v = 0 := by
  cases v; simp [ext_iff']

end IVec3

namespace Mat3

@[simp] lemma vecMul_x (v : Vec3) (m : Mat3) :
    (vecMul v m).x = v.x * m.r1.x + v.y * m.r2.x + v.z * m.r3.x := rfl

@[simp] lemma vecMul_y (v : Vec3) (m : Mat3) :
    (vecMul v m).y = v.x * m.r1.y + v.y * m.r2.y + v.z * m.r3.y := rfl

@[simp] lemma vecMul_z (v : Vec3) (m : Mat3) :
    (vecMul v m).z = v.x * m.r1.z + v.y * m.r2.z + v.z * m.r3.z := rfl

lemma ivecMul_neg (s : IVec3) (m : Mat3) : ivecMul (-s) m = -(ivecMul s m) := by
  apply Vec3.ext' <;>
    simp only [ivecMul, IVec3.toVec3, vecMul_x, vecMul_y, vecMul_z,
      Vec3.neg_x, Vec3.neg_y, Vec3.neg_z, IVec3.neg_ix, IVec3.neg_iy,
      IVec3.neg_iz] <;> push_cast <;> ring

lemma ivecMul_zero (m : Mat3) : ivecMul 0 m = 0 := by
  apply Vec3.ext' <;> simp [ivecMul, IVec3.toVec3]

/-- A vector's coordinate under `vecMul` is a dot with the matrix column. -/
lemma vecMul_x_eq_dot_col1 (v : Vec3) (m : Mat3) :
    (vecMul v m).x = v.dot m.col1 := by
  simp only [vecMul_x, Vec3.dot, col1]

lemma vecMul_y_eq_dot_col2 (v : Vec3) (m : Mat3) :
    (vecMul v m).y = v.dot m.col2 := by
  simp only [vecMul_y, Vec3.dot, col2]

lemma vecMul_z_eq_dot_col3 (v : Vec3) (m : Mat3) :
    (vecMul v m).z = v.dot m.col3 := by
  simp only [vecMul_z, Vec3.dot, col3]

/-- Explicit form of the inverse of an invertible matrix. -/
lemma inv_of_ne (m : Mat3) (h : m.det ≠ 0) :
    m.inv = ⟨⟨(m.r2.cross m.r3).x / m.det, (m.r3.cross m.r1).x / m.det,
              (m.r1.cross m.r2).x / m.det⟩,
             ⟨(m.r2.cross m.r3).y / m.det, (m.r3.cross m.r1).y / m.det,
              (m.r1.cross m.r2).y / m.det⟩,
             ⟨(m.r2.cross m.r3).z / m.det, (m.r3.cross m.r1).z / m.det,
              (m.r1.cross m.r2).z / m.det⟩⟩ := by
  rw [inv]
  simp only [if_neg h]

/-- `(v·M) · b1 = v.x` for the first reciprocal vector of an invertible
matrix. -/
lemma vecMul_dot_invcol1 (m : Mat3) (h : m.det ≠ 0) (v : Vec3) :
    (vecMul v m).dot m.inv.col1 = v.x := by
  rw [inv_of_ne m h]
  simp only [col1, vecMul_x, vecMul_y, vecMul_z, Vec3.dot, Vec3.cross]
  field_simp
  simp only [det, Vec3.dot, Vec3.cross]
  ring

lemma vecMul_dot_invcol2 (m : Mat3) (h : m.det ≠ 0) (v : Vec3) :
    (vecMul v m).dot m.inv.col2 = v.y := by
  rw [inv_of_ne m h]
  simp only [col2, vecMul_x, vecMul_y, vecMul_z, Vec3.dot, Vec3.cross]
  field_simp
  simp only [det, Vec3.dot, Vec3.cross]
  ring

lemma vecMul_dot_invcol3 (m : Mat3) (h : m.det ≠ 0) (v : Vec3) :
    (vecMul v m).dot m.inv.col3 = v.z := by
  rw [inv_of_ne m h]
  simp only [col3, vecMul_x, vecMul_y, vecMul_z, Vec3.dot, Vec3.cross]
  field_simp
  simp only [det, Vec3.dot, Vec3.cross]
  ring

/-- The first row of an invertible matrix pairs to 1 with the first
reciprocal vector. -/
lemma r1_dot_invcol1 (m : Mat3) (h : m.det ≠ 0) :
    m.r1.dot m.inv.col1 = 1 := by
  have := vecMul_dot_invcol1 m h ⟨1, 0, 0⟩
  simpa [vecMul, Vec3.dot] using this

lemma r2_dot_invcol2 (m : Mat3) (h : m.det ≠ 0) :
    m.r2.dot m.inv.col2 = 1 := by
  have := vecMul_dot_invcol2 m h ⟨0, 1, 0⟩
  simpa [vecMul, Vec3.dot] using this

lemma r3_dot_invcol3 (m : Mat3) (h : m.det ≠ 0) :
    m.r3.dot m.inv.col3 = 1 := by
  have := vecMul_dot_invcol3 m h ⟨0, 0, 1⟩
  simpa [vecMul, Vec3.dot] using this

/-- The reciprocal vectors of an invertible matrix are nonzero. -/
lemma invcol1_sq_pos (m : Mat3) (h : m.det ≠ 0) : 0 < (m.inv.col1).sq := by
  rcases lt_or_le 0 (m.inv.col1).sq with hp | hp
  · exact hp
  · exfalso
    have h1 := r1_dot_invcol1 m h
    have hcs := Vec3.dot_sq_le_sq_mul_sq m.r1 m.inv.col1
    have hr := m.r1.sq_nonneg'
    rw [h1] at hcs
    nlinarith

lemma invcol2_sq_pos (m : Mat3) (h : m.det ≠ 0) : 0 < (m.inv.col2).sq := by
  rcases lt_or_le 0 (m.inv.col2).sq with hp | hp
  · exact hp
  · exfalso
    have h1 := r2_dot_invcol2 m h
    have hcs := Vec3.dot_sq_le_sq_mul_sq m.r2 m.inv.col2
    have hr := m.r2.sq_nonneg'
    rw [h1] at hcs
    nlinarith

lemma invcol3_sq_pos (m : Mat3) (h : m.det ≠ 0) : 0 < (m.inv.col3).sq := by
  rcases lt_or_le 0 (m.inv.col3).sq with hp | hp
  · exact hp
  · exfalso
    have h1 := r3_dot_invcol3 m h
    have hcs := Vec3.dot_sq_le_sq_mul_sq m.r3 m.inv.col3
    have hr := m.r3.sq_nonneg'
    rw [h1] at hcs
    nlinarith

end Mat3

/-! ## Lemmas: integer square roots and the distance test -/

lemma ratSqrtFloor_le {q : ℚ} (hq : 0 ≤ q) :
    ((ratSqrtFloor q : ℚ)) ^ 2 ≤ q := by
  have h1 : (Nat.sqrt ⌊q⌋₊) ^ 2 ≤ ⌊q⌋₊ := Nat.sqrt_le' _
  have h2 : ((⌊q⌋₊ : ℚ)) ≤ q := Nat.floor_le hq
  have h3 : (((Nat.sqrt ⌊q⌋₊) ^ 2 : ℕ) : ℚ) ≤ ((⌊q⌋₊ : ℕ) : ℚ) := by
    exact_mod_cast h1
  simp only [ratSqrtFloor]
  push_cast at h3 ⊢
  linarith

lemma lt_ratSqrtFloor_succ (q : ℚ) :
    q < ((ratSqrtFloor q : ℚ) + 1) ^ 2 := by
  have h1 : ⌊q⌋₊ < (Nat.sqrt ⌊q⌋₊).succ ^ 2 := Nat.lt_succ_sqrt' _
  have h2 : q < (⌊q⌋₊ : ℚ) + 1 := Nat.lt_floor_add_one q
  have h3 : ((⌊q⌋₊ : ℕ) : ℚ) + 1 ≤ (((Nat.sqrt ⌊q⌋₊).succ ^ 2 : ℕ) : ℚ) := by
    exact_mod_cast h1
  simp only [ratSqrtFloor]
  push_cast [Nat.succ_eq_add_one] at h3 ⊢
  linarith

/-- The key property of the loop radius: `q ≤ (ratSqrtCeil q)²`. -/
lemma le_ratSqrtCeil_sq (q : ℚ) : q ≤ ((ratSqrtCeil q : ℚ)) ^ 2 := by
  simp only [ratSqrtCeil]
  split
  · assumption
  · have := lt_ratSqrtFloor_succ q
    have hc : ((ratSqrtFloor q + 1 : ℕ) : ℚ) = (ratSqrtFloor q : ℚ) + 1 := by
      push_cast
      ring
    rw [hc]
    linarith

lemma distLtB_iff (sqd c : ℚ) :
    distLtB sqd c = true ↔ 0 ≤ c ∧ sqd < c ^ 2 := by
  simp [distLtB]

/-- The embedded distance test says exactly `sqrt sqd < c`, the strict
floating-point comparison of the code. -/
lemma distLtB_iff_sqrt_lt {sqd : ℚ} (hs : 0 ≤ sqd) (c : ℚ) :
    distLtB sqd c = true ↔ Real.sqrt (sqd : ℝ) < (c : ℝ) := by
  rw [distLtB_iff]
  rcases le_or_lt c 0 with hc | hc
  · constructor
    · rintro ⟨h0, hlt⟩
      have hc0 : c = 0 := le_antisymm hc h0
      subst hc0
      norm_num at hlt
      linarith
    · intro h
      exfalso
      have : (0 : ℝ) ≤ Real.sqrt (sqd : ℝ) := Real.sqrt_nonneg _
      have hcr : (c : ℝ) ≤ 0 := by exact_mod_cast hc
      linarith
  · have hcr : (0 : ℝ) < (c : ℝ) := by exact_mod_cast hc
    rw [Real.sqrt_lt' hcr]
    constructor
    · rintro ⟨_, hlt⟩
      exact_mod_cast hlt
    · intro h
      refine ⟨le_of_lt hc, ?_⟩
      exact_mod_cast h

/-! ## Lemmas: bins and membership in the emitted pair list -/

lemma nbinsAxis_pos (c bb : ℚ) : 1 ≤ nbinsAxis c bb := by
  unfold nbinsAxis
  split
  · exact le_refl 1
  · exact le_max_right _ _

lemma nbins1_pos (a : Atoms) (c : ℚ) : 1 ≤ nbins1 a c := nbinsAxis_pos _ _

lemma nbins2_pos (a : Atoms) (c : ℚ) : 1 ≤ nbins2 a c := nbinsAxis_pos _ _

lemma nbins3_pos (a : Atoms) (c : ℚ) : 1 ≤ nbins3 a c := nbinsAxis_pos _ _

lemma axisBin_range (p : Bool) (n : ℕ) (hn : 1 ≤ n) (r : ℤ) :
    0 ≤ axisBin p n r ∧ axisBin p n r < (n : ℤ) := by
  unfold axisBin
  split
  · have hn0 : (n : ℤ) ≠ 0 := by exact_mod_cast Nat.one_le_iff_ne_zero.mp hn
    have hpos : (0 : ℤ) < n := by exact_mod_cast hn
    exact ⟨Int.emod_nonneg r hn0, Int.emod_lt_of_pos r hpos⟩
  · have hpos : (1 : ℤ) ≤ (n : ℤ) := by exact_mod_cast hn
    omega

lemma mem_rangeSym {n : ℕ} {d : ℤ} :
    d ∈ rangeSym n ↔ -(n : ℤ) ≤ d ∧ d ≤ (n : ℤ) := by
  unfold rangeSym
  rw [List.mem_map]
  constructor
  · rintro ⟨k, hk, rfl⟩
    rw [List.mem_range] at hk
    omega
  · intro h
    refine ⟨(d + n).toNat, ?_, ?_⟩
    · rw [List.mem_range]
      omega
    · omega

lemma mem_offsetList {a : Atoms} {c : ℚ} {d : IVec3} :
    d ∈ offsetList a c ↔
      (-(nd1 a c : ℤ) ≤ d.x ∧ d.x ≤ (nd1 a c : ℤ)) ∧
      (-(nd2 a c : ℤ) ≤ d.y ∧ d.y ≤ (nd2 a c : ℤ)) ∧
      (-(nd3 a c : ℤ) ≤ d.z ∧ d.z ≤ (nd3 a c : ℤ)) := by
  unfold offsetList
  simp only [List.mem_flatMap, List.mem_map]
  constructor
  · rintro ⟨dz, hz, dy, hy, dx, hx, rfl⟩
    exact ⟨mem_rangeSym.mp hx, mem_rangeSym.mp hy, mem_rangeSym.mp hz⟩
  · rintro ⟨hx, hy, hz⟩
    exact ⟨d.z, mem_rangeSym.mpr hz, d.y, mem_rangeSym.mpr hy, d.x,
      mem_rangeSym.mpr hx, rfl⟩

lemma mem_allBins {a : Atoms} {c : ℚ} {B : IVec3} :
    B ∈ allBins a c ↔
      (0 ≤ B.x ∧ B.x < (nbins1 a c : ℤ)) ∧
      (0 ≤ B.y ∧ B.y < (nbins2 a c : ℤ)) ∧
      (0 ≤ B.z ∧ B.z < (nbins3 a c : ℤ)) := by
  unfold allBins
  constructor
  · intro hB
    rw [List.mem_flatMap] at hB
    obtain ⟨b3, h3, hB⟩ := hB
    rw [List.mem_flatMap] at hB
    obtain ⟨b2, h2, hB⟩ := hB
    rw [List.mem_map] at hB
    obtain ⟨b1, h1, rfl⟩ := hB
    rw [List.mem_range] at h1 h2 h3
    refine ⟨⟨?_, ?_⟩, ⟨?_, ?_⟩, ⟨?_, ?_⟩⟩ <;> · dsimp only; omega
  · rintro ⟨⟨hx0, hx1⟩, ⟨hy0, hy1⟩, ⟨hz0, hz1⟩⟩
    rw [List.mem_flatMap]
    refine ⟨B.z.toNat, ?_, ?_⟩
    · rw [List.mem_range]
      omega
    · rw [List.mem_flatMap]
      refine ⟨B.y.toNat, ?_, ?_⟩
      · rw [List.mem_range]
        omega
      · rw [List.mem_map]
        refine ⟨B.x.toNat, ?_, ?_⟩
        · rw [List.mem_range]
          omega
        · rw [IVec3.ext_iff']
          refine ⟨?_, ?_, ?_⟩ <;> simp <;> omega

lemma cartBin_mem_allBins (a : Atoms) (c : ℚ) (i : ℕ) :
    cartBin a c i ∈ allBins a c := by
  rw [mem_allBins]
  unfold cartBin
  exact ⟨axisBin_range _ _ (nbins1_pos a c) _,
    axisBin_range _ _ (nbins2_pos a c) _,
    axisBin_range _ _ (nbins3_pos a c) _⟩

lemma mem_binList {a : Atoms} {c : ℚ} {i : ℕ} {B : IVec3} :
    i ∈ binList a c B ↔ i < a.positions.length ∧ cartBin a c i = B := by
  unfold binList
  simp [List.mem_filter, List.mem_range]

/-- Membership characterisation of the candidate list produced by the main
loop: a triple is emitted iff both atoms exist, the offset `d` connecting
their bins is inside the search box, and the stored shift is the `divmod`
quotient of that bin step. -/
lemma mem_emitPairs {a : Atoms} {c : ℚ} {i j : ℕ} {σ : IVec3} :
    (i, j, σ) ∈ emitPairs a c ↔
      i < a.positions.length ∧ j < a.positions.length ∧
      ∃ d ∈ offsetList a c,
        targetBin a c (cartBin a c i) d = cartBin a c j ∧
        σ = divShift a c (cartBin a c i) d := by
  unfold emitPairs
  simp only [List.mem_flatMap, List.mem_map]
  constructor
  · rintro ⟨d, hd, B, hB, i', hi', j', hj', heq⟩
    have h1 : i' = i := congrArg Prod.fst heq
    have h2 : j' = j := congrArg (fun t => t.2.1) heq
    have h3 : divShift a c B d = σ := congrArg (fun t => t.2.2) heq
    subst h1
    subst h2
    obtain ⟨hi, hBi⟩ := mem_binList.mp hi'
    obtain ⟨hj, hBj⟩ := mem_binList.mp hj'
    subst hBi
    exact ⟨hi, hj, d, hd, hBj.symm, h3.symm⟩
  · rintro ⟨hi, hj, d, hd, htgt, rfl⟩
    exact ⟨d, hd, cartBin a c i, cartBin_mem_allBins a c i, i,
      mem_binList.mpr ⟨hi, rfl⟩, j, mem_binList.mpr ⟨hj, htgt.symm⟩, rfl⟩

lemma mem_rawPairs {a : Atoms} {c : ℚ} {i j : ℕ} {S : IVec3} :
    (i, j, S) ∈ rawPairs a c ↔
      ∃ σ, (i, j, σ) ∈ emitPairs a c ∧
        S = σ + wrapShift a c i - wrapShift a c j := by
  unfold rawPairs
  rw [List.mem_map]
  constructor
  · rintro ⟨⟨i', j', σ⟩, hmem, heq⟩
    obtain ⟨h1, h2, h3⟩ : i' = i ∧ j' = j ∧
        σ + wrapShift a c i' - wrapShift a c j' = S :=
      ⟨congrArg Prod.fst heq, congrArg (fun t => t.2.1) heq,
        congrArg (fun t => t.2.2) heq⟩
    subst h1; subst h2; subst h3
    exact ⟨σ, hmem, rfl⟩
  · rintro ⟨σ, hmem, rfl⟩
    exact ⟨(i, j, σ), hmem, rfl⟩

/-- Division/remainder of a value decomposed as `b + σ·n` with
`0 ≤ b < n`. -/
lemma ediv_emod_decomp {n σ b : ℤ} (h0 : 0 ≤ b) (h1 : b < n) :
    (b + σ * n) / n = σ ∧ (b + σ * n) % n = b := by
  have hn : n ≠ 0 := by omega
  constructor
  · rw [Int.add_mul_ediv_right _ _ hn, Int.ediv_eq_zero_of_lt h0 h1]
    ring
  · rw [Int.add_mul_emod_self, Int.emod_eq_of_lt h0 h1]

/-- Mirror of one axis of a bin step: going back by `-dx` from the target
bin reaches the source bin with the opposite `divmod` quotient. -/
lemma axis_mirror {n bi bj dx : ℤ} (h0 : 0 ≤ bi) (h1 : bi < n)
    (ht : (bi + dx) % n = bj) :
    (bj + -dx) % n = bi ∧ (bj + -dx) / n = -((bi + dx) / n) := by
  have hdecomp : bi + dx = n * ((bi + dx) / n) + bj := by
    conv_lhs => rw [← Int.ediv_add_emod (bi + dx) n]
    rw [ht]
  have hkey : bj + -dx = bi + (-((bi + dx) / n)) * n := by linarith
  rw [hkey]
  obtain ⟨hd, hm⟩ := ediv_emod_decomp h0 h1 (σ := -((bi + dx) / n))
  exact ⟨hm, hd⟩

/-- The mirror of an emitted candidate is emitted (with the opposite
`divmod` shift): take the opposite bin offset. -/
lemma emit_mirror {a : Atoms} {c : ℚ} {i j : ℕ} {σ : IVec3}
    (h : (i, j, σ) ∈ emitPairs a c) : (j, i, -σ) ∈ emitPairs a c := by
  obtain ⟨hi, hj, d, hd, htgt, hσ⟩ := mem_emitPairs.mp h
  have hBi := axisBin_range a.pbc.1 (nbins1 a c) (nbins1_pos a c)
    (axisRaw (nbins1 a c) (scaledPos a i).x)
  have hBi2 := axisBin_range a.pbc.2.1 (nbins2 a c) (nbins2_pos a c)
    (axisRaw (nbins2 a c) (scaledPos a i).y)
  have hBi3 := axisBin_range a.pbc.2.2 (nbins3 a c) (nbins3_pos a c)
    (axisRaw (nbins3 a c) (scaledPos a i).z)
  rw [IVec3.ext_iff'] at htgt
  obtain ⟨htx, hty, htz⟩ := htgt
  have hmx := axis_mirror hBi.1 hBi.2 htx
  have hmy := axis_mirror hBi2.1 hBi2.2 hty
  have hmz := axis_mirror hBi3.1 hBi3.2 htz
  rw [mem_emitPairs]
  refine ⟨hj, hi, -d, ?_, ?_, ?_⟩
  · rw [mem_offsetList] at hd ⊢
    simp only [IVec3.neg_ix, IVec3.neg_iy, IVec3.neg_iz]
    omega
  · rw [IVec3.ext_iff']
    exact ⟨hmx.1, hmy.1, hmz.1⟩
  · rw [hσ, IVec3.ext_iff']
    dsimp only [divShift, cartBin, IVec3.neg_ix, IVec3.neg_iy, IVec3.neg_iz]
    dsimp only [cartBin] at hmx hmy hmz
    exact ⟨hmx.2.symm, hmy.2.symm, hmz.2.symm⟩

/-! ## Lemmas: symmetry of the full pair list -/

lemma raw_mirror {a : Atoms} {c : ℚ} {i j : ℕ} {S : IVec3}
    (h : (i, j, S) ∈ rawPairs a c) : (j, i, -S) ∈ rawPairs a c := by
  obtain ⟨σ, hσ, rfl⟩ := mem_rawPairs.mp h
  refine mem_rawPairs.mpr ⟨-σ, emit_mirror hσ, ?_⟩
  rw [IVec3.ext_iff']
  refine ⟨?_, ?_, ?_⟩ <;> · dsimp only [IVec3.neg_ix, IVec3.neg_iy,
    IVec3.neg_iz, IVec3.add_ix, IVec3.add_iy, IVec3.add_iz, IVec3.sub_ix,
    IVec3.sub_iy, IVec3.sub_iz]; ring

lemma mem_selfFiltered {a : Atoms} {c : ℚ} {si : Bool} {t : ℕ × ℕ × IVec3} :
    t ∈ selfFiltered a c si ↔ t ∈ rawPairs a c ∧
      (si = false → ¬(t.1 = t.2.1 ∧ t.2.2 = (0 : IVec3))) := by
  unfold selfFiltered
  cases si with
  | true => simp
  | false =>
    simp [List.mem_filter]
    tauto

lemma mem_pbcFiltered {a : Atoms} {l : List (ℕ × ℕ × IVec3)}
    {t : ℕ × ℕ × IVec3} :
    t ∈ pbcFiltered a l ↔ t ∈ l ∧ pbcOKS a t.2.2 := by
  unfold pbcFiltered pbcOKS
  cases hp1 : a.pbc.1 <;> cases hp2 : a.pbc.2.1 <;> cases hp3 : a.pbc.2.2 <;>
    simp [List.mem_filter] <;> tauto

lemma mem_sortPairs {l : List (ℕ × ℕ × IVec3)} {t : ℕ × ℕ × IVec3} :
    t ∈ sortPairs l ↔ t ∈ l :=
  (List.perm_insertionSort _ l).mem_iff

/-- The triple list entering the distance computation is closed under
mirroring. -/
lemma stage_mirror {a : Atoms} {c : ℚ} {si : Bool} {i j : ℕ} {S : IVec3}
    (h : (i, j, S) ∈ sortPairs (pbcFiltered a (selfFiltered a c si))) :
    (j, i, -S) ∈ sortPairs (pbcFiltered a (selfFiltered a c si)) := by
  rw [mem_sortPairs, mem_pbcFiltered, mem_selfFiltered] at h ⊢
  obtain ⟨⟨hraw, hself⟩, hpbc⟩ := h
  refine ⟨⟨raw_mirror hraw, ?_⟩, ?_⟩
  · intro hsi hcon
    exact hself hsi ⟨hcon.1.symm, by simpa using hcon.2⟩
  · obtain ⟨h1, h2, h3⟩ := hpbc
    exact ⟨fun hf => by simpa using congrArg Neg.neg (h1 hf),
      fun hf => by simpa using congrArg Neg.neg (h2 hf),
      fun hf => by simpa using congrArg Neg.neg (h3 hf)⟩

/-- The mirrored displacement vector is the negated displacement vector. -/
lemma pairRecOf_mirror (a : Atoms) (t : ℕ × ℕ × IVec3) :
    pairRecOf a (t.2.1, t.1, -t.2.2) = (pairRecOf a t).mirror := by
  unfold pairRecOf PairRec.mirror
  have hD : (a.positions.getD t.1 0) - (a.positions.getD t.2.1 0) +
      Mat3.ivecMul (-t.2.2) a.cell =
      -((a.positions.getD t.2.1 0) - (a.positions.getD t.1 0) +
        Mat3.ivecMul t.2.2 a.cell) := by
    rw [Mat3.ivecMul_neg]
    apply Vec3.ext' <;> · simp; ring
  simp only [hD, Vec3.sq_neg]

lemma pairCutLookup_symm (es : List ((Species × Species) × ℚ)) (ni nj : ℕ) :
    pairCutLookup es ni nj = pairCutLookup es nj ni := by
  unfold pairCutLookup
  suffices h : ∀ acc : ℚ, es.foldl _ acc = es.foldl _ acc from h 0
  induction es with
  | nil => intro acc; rfl
  | cons e rest ih =>
    intro acc
    simp only [List.foldl_cons]
    split
    · rename_i hsame
      by_cases hm : (speciesEq (resolveSpecies e.1.1) ni &&
          speciesEq (resolveSpecies e.1.2) nj) =
          (speciesEq (resolveSpecies e.1.1) nj &&
          speciesEq (resolveSpecies e.1.2) ni)
      · rw [hm]
        exact ih _
      · exfalso
        rw [hsame] at hm
        rcases Bool.eq_false_or_eq_true (speciesEq (resolveSpecies e.1.2) ni)
          with h1 | h1 <;>
        rcases Bool.eq_false_or_eq_true (speciesEq (resolveSpecies e.1.2) nj)
          with h2 | h2 <;> simp [h1, h2] at hm
    · have hsymm : ((speciesEq (resolveSpecies e.1.1) ni &&
          speciesEq (resolveSpecies e.1.2) nj) ||
          (speciesEq (resolveSpecies e.1.2) ni &&
          speciesEq (resolveSpecies e.1.1) nj)) =
          ((speciesEq (resolveSpecies e.1.1) nj &&
          speciesEq (resolveSpecies e.1.2) ni) ||
          (speciesEq (resolveSpecies e.1.2) nj &&
          speciesEq (resolveSpecies e.1.1) ni)) := by
        rcases Bool.eq_false_or_eq_true (speciesEq (resolveSpecies e.1.1) ni)
          with h1 | h1 <;>
        rcases Bool.eq_false_or_eq_true (speciesEq (resolveSpecies e.1.1) nj)
          with h2 | h2 <;>
        rcases Bool.eq_false_or_eq_true (speciesEq (resolveSpecies e.1.2) ni)
          with h3 | h3 <;>
        rcases Bool.eq_false_or_eq_true (speciesEq (resolveSpecies e.1.2) nj)
          with h4 | h4 <;> simp [h1, h2, h3, h4]
      rw [hsymm]
      exact ih _

/-- Decomposition of a successful `neighbor_list` run. -/
lemma neighbor_list_ok {a : Atoms} {cut : NLCutoff} {si : Bool}
    {out : List PairRec} (h : neighbor_list a cut si = .ok out) :
    ∃ c, maxCutoffE cut = .ok c ∧ a.positions.length ≠ 0 ∧
      out = cutoffFiltered cut a (maxCutFiltered c (toRecs a
        (sortPairs (pbcFiltered a (selfFiltered a c si))))) := by
  unfold neighbor_list at h
  cases hm : maxCutoffE cut with
  | error e => rw [hm] at h; exact absurd h (by simp)
  | ok c =>
    rw [hm] at h
    dsimp only at h
    by_cases hN : a.positions.length = 0
    · rw [if_pos hN] at h
      exact absurd h (by simp)
    · rw [if_neg hN] at h
      refine ⟨c, rfl, hN, ?_⟩
      have := Except.ok.inj h
      exact this.symm

/-- Symmetry of the full (un-halved) output of `neighbor_list`: the mirror
of every returned record is returned, with the same squared distance. -/
lemma neighbor_list_mirror {a : Atoms} {cut : NLCutoff} {si : Bool}
    {out : List PairRec} (h : neighbor_list a cut si = .ok out)
    {p : PairRec} (hp : p ∈ out) : p.mirror ∈ out := by
  obtain ⟨c, hc, hN, rfl⟩ := neighbor_list_ok h
  have hstage : ∀ q : PairRec,
      q ∈ maxCutFiltered c (toRecs a (sortPairs (pbcFiltered a
        (selfFiltered a c si)))) →
      q.mirror ∈ maxCutFiltered c (toRecs a (sortPairs (pbcFiltered a
        (selfFiltered a c si)))) := by
    intro q hq
    rw [maxCutFiltered, List.mem_filter] at hq ⊢
    obtain ⟨hmem, hdist⟩ := hq
    rw [toRecs, List.mem_map] at hmem
    obtain ⟨t, ht, rfl⟩ := hmem
    refine ⟨?_, ?_⟩
    · rw [toRecs, List.mem_map]
      refine ⟨(t.2.1, t.1, -t.2.2), ?_, pairRecOf_mirror a t⟩
      exact stage_mirror ht
    · simpa [PairRec.mirror] using hdist
  cases cut with
  | scalar c' =>
    simp only [cutoffFiltered] at hp ⊢
    exact hstage p hp
  | table es =>
    simp only [cutoffFiltered, List.mem_filter] at hp ⊢
    refine ⟨hstage p hp.1, ?_⟩
    have := hp.2
    simpa [PairRec.mirror, pairCutLookup_symm es] using this
  | perAtom cs =>
    simp only [cutoffFiltered, List.mem_filter] at hp ⊢
    refine ⟨hstage p hp.1, ?_⟩
    have := hp.2
    simpa [PairRec.mirror, add_comm] using this

/-! ## Lemmas: completeness of the bin search -/

lemma bound_helper {d : ℤ} {nd : ℕ} {tn : ℚ}
    (h1 : |(d : ℚ) - tn| < 1) (h2 : tn ^ 2 < ((nd : ℕ) : ℚ) ^ 2) :
    -(nd : ℤ) ≤ d ∧ d ≤ (nd : ℤ) := by
  have hnd0 : (0 : ℚ) ≤ ((nd : ℕ) : ℚ) := by positivity
  have habs1 : -((nd : ℕ) : ℚ) < tn := by nlinarith
  have habs2 : tn < ((nd : ℕ) : ℚ) := by nlinarith
  have h1' := abs_lt.mp h1
  have hub : (d : ℚ) < ((nd : ℕ) : ℚ) + 1 := by linarith
  have hlb : -((nd : ℕ) : ℚ) - 1 < (d : ℚ) := by linarith
  constructor
  · have hq : ((-(nd : ℤ) - 1 : ℤ) : ℚ) < ((d : ℤ) : ℚ) := by push_cast; linarith
    have := Int.cast_lt.mp hq
    omega
  · have hq : ((d : ℤ) : ℚ) < (((nd : ℤ) + 1 : ℤ) : ℚ) := by push_cast; linarith
    have := Int.cast_lt.mp hq
    omega

lemma ndAxisOf_sq_le {c bb : ℚ} (hc : 0 < c) (hbb : 0 < bb) (n : ℕ) :
    c ^ 2 * (n : ℚ) ^ 2 * bb ≤ ((ndAxisOf c bb n : ℕ) : ℚ) ^ 2 := by
  unfold ndAxisOf
  rw [if_neg (by push_neg; constructor <;> linarith)]
  exact le_ratSqrtCeil_sq _

/-- Floor sandwich for `axisRaw`. -/
lemma axisRaw_bounds (n : ℕ) (s : ℚ) :
    ((axisRaw n s : ℤ) : ℚ) ≤ s * (n : ℚ) ∧
      s * (n : ℚ) < ((axisRaw n s : ℤ) : ℚ) + 1 :=
  ⟨Int.floor_le _, Int.lt_floor_add_one _⟩

/-- Completeness along one axis: if the scaled separation (shift included)
is below `c·sqrt bb`, then the bin offset `d` that connects the two wrapped
bins with the required shift lies inside the search radius `nd`. -/
lemma axis_complete (p : Bool) (c bb : ℚ) (hc : 0 < c) (hbb : 0 < bb)
    (si sj : ℚ) (Sc : ℤ) (hS : p = false → Sc = 0)
    (ht : (sj - si + (Sc : ℚ)) ^ 2 < c ^ 2 * bb) :
    ∃ d : ℤ,
      -(ndAxisOf c bb (nbinsAxis c bb) : ℤ) ≤ d ∧
      d ≤ (ndAxisOf c bb (nbinsAxis c bb) : ℤ) ∧
      (axisBin p (nbinsAxis c bb) (axisRaw (nbinsAxis c bb) si) + d) %
          ((nbinsAxis c bb : ℕ) : ℤ) =
        axisBin p (nbinsAxis c bb) (axisRaw (nbinsAxis c bb) sj) ∧
      (axisBin p (nbinsAxis c bb) (axisRaw (nbinsAxis c bb) si) + d) /
          ((nbinsAxis c bb : ℕ) : ℤ) =
        Sc - axisWrap p (nbinsAxis c bb) (axisRaw (nbinsAxis c bb) si) +
          axisWrap p (nbinsAxis c bb) (axisRaw (nbinsAxis c bb) sj) := by
  have hn : 1 ≤ nbinsAxis c bb := nbinsAxis_pos c bb
  set n : ℕ := nbinsAxis c bb with hndef
  set nd : ℕ := ndAxisOf c bb n with hnddef
  have hnZ : (1 : ℤ) ≤ (n : ℤ) := by exact_mod_cast hn
  have hnd2 : c ^ 2 * (n : ℚ) ^ 2 * bb ≤ ((nd : ℕ) : ℚ) ^ 2 :=
    ndAxisOf_sq_le hc hbb n
  have htn : ((sj - si + (Sc : ℚ)) * (n : ℚ)) ^ 2 < ((nd : ℕ) : ℚ) ^ 2 := by
    have hnn : (0 : ℚ) < ((n : ℕ) : ℚ) ^ 2 := by
      have : (0 : ℚ) < ((n : ℕ) : ℚ) := by exact_mod_cast hn
      positivity
    calc ((sj - si + (Sc : ℚ)) * (n : ℚ)) ^ 2
        = (sj - si + (Sc : ℚ)) ^ 2 * (n : ℚ) ^ 2 := by ring
      _ < (c ^ 2 * bb) * (n : ℚ) ^ 2 := by
          exact mul_lt_mul_of_pos_right ht hnn
      _ = c ^ 2 * (n : ℚ) ^ 2 * bb := by ring
      _ ≤ ((nd : ℕ) : ℚ) ^ 2 := hnd2
  have hri := axisRaw_bounds n si
  have hrj := axisRaw_bounds n sj
  set ri : ℤ := axisRaw n si with hridef
  set rj : ℤ := axisRaw n sj with hrjdef
  cases p with
  | true =>
    -- periodic axis: divmod wrap
    set bi : ℤ := ri % (n : ℤ) with hbidef
    set bj : ℤ := rj % (n : ℤ) with hbjdef
    set wi : ℤ := ri / (n : ℤ) with hwidef
    set wj : ℤ := rj / (n : ℤ) with hwjdef
    have hdecompi : (n : ℤ) * wi + bi = ri := Int.ediv_add_emod ri (n : ℤ)
    have hdecompj : (n : ℤ) * wj + bj = rj := Int.ediv_add_emod rj (n : ℤ)
    have hbj0 : 0 ≤ bj := Int.emod_nonneg rj (by omega)
    have hbj1 : bj < (n : ℤ) := Int.emod_lt_of_pos rj (by omega)
    have habs : |((Sc * (n : ℤ) + rj - ri : ℤ) : ℚ) -
        (sj - si + (Sc : ℚ)) * (n : ℚ)| < 1 := by
      have hdiff : ((Sc * (n : ℤ) + rj - ri : ℤ) : ℚ) -
          (sj - si + (Sc : ℚ)) * (n : ℚ) =
          ((rj : ℚ) - sj * (n : ℚ)) + (si * (n : ℚ) - (ri : ℚ)) := by
        push_cast
        ring
      rw [hdiff, abs_lt]
      constructor <;> linarith [hri.1, hri.2, hrj.1, hrj.2]
    obtain ⟨hlo, hhi⟩ := bound_helper habs htn
    have harg : bi + (Sc * (n : ℤ) + rj - ri) =
        bj + (Sc - wi + wj) * (n : ℤ) := by
      linear_combination hdecompi - hdecompj
    refine ⟨Sc * (n : ℤ) + rj - ri, hlo, hhi, ?_, ?_⟩
    · show (bi + (Sc * (n : ℤ) + rj - ri)) % (n : ℤ) = bj
      rw [harg]
      exact (ediv_emod_decomp hbj0 hbj1).2
    · show (bi + (Sc * (n : ℤ) + rj - ri)) / (n : ℤ) = Sc - wi + wj
      rw [harg]
      exact (ediv_emod_decomp hbj0 hbj1).1
  | false =>
    -- nonperiodic axis: clamp, no wrap
    have hSc : Sc = 0 := hS rfl
    subst hSc
    set bi : ℤ := min (max ri 0) ((n : ℤ) - 1) with hbidef
    set bj : ℤ := min (max rj 0) ((n : ℤ) - 1) with hbjdef
    have hbj0 : 0 ≤ bj := by omega
    have hbj1 : bj < (n : ℤ) := by omega
    have habs : |((rj - ri : ℤ) : ℚ) -
        (sj - si + ((0 : ℤ) : ℚ)) * (n : ℚ)| < 1 := by
      have hdiff : ((rj - ri : ℤ) : ℚ) -
          (sj - si + ((0 : ℤ) : ℚ)) * (n : ℚ) =
          ((rj : ℚ) - sj * (n : ℚ)) + (si * (n : ℚ) - (ri : ℚ)) := by
        push_cast
        ring
      rw [hdiff, abs_lt]
      constructor <;> linarith [hri.1, hri.2, hrj.1, hrj.2]
    obtain ⟨hlo, hhi⟩ := bound_helper habs htn
    refine ⟨bj - bi, by omega, by omega, ?_, ?_⟩
    · show (bi + (bj - bi)) % (n : ℤ) = bj
      have hbb' : bi + (bj - bi) = bj := by ring
      rw [hbb']
      exact Int.emod_eq_of_lt hbj0 hbj1
    · show (bi + (bj - bi)) / (n : ℤ) = 0 - 0 + 0
      have hbb' : bi + (bj - bi) = bj := by ring
      rw [hbb', Int.ediv_eq_zero_of_lt hbj0 hbj1]
      ring

@[simp] lemma cartBin_x (a : Atoms) (c : ℚ) (i : ℕ) :
    (cartBin a c i).x =
      axisBin a.pbc.1 (nbins1 a c) (axisRaw (nbins1 a c) (scaledPos a i).x) :=
  rfl

@[simp] lemma cartBin_y (a : Atoms) (c : ℚ) (i : ℕ) :
    (cartBin a c i).y =
      axisBin a.pbc.2.1 (nbins2 a c)
        (axisRaw (nbins2 a c) (scaledPos a i).y) :=
  rfl

@[simp] lemma cartBin_z (a : Atoms) (c : ℚ) (i : ℕ) :
    (cartBin a c i).z =
      axisBin a.pbc.2.2 (nbins3 a c)
        (axisRaw (nbins3 a c) (scaledPos a i).z) :=
  rfl

@[simp] lemma wrapShift_x (a : Atoms) (c : ℚ) (i : ℕ) :
    (wrapShift a c i).x =
      axisWrap a.pbc.1 (nbins1 a c) (axisRaw (nbins1 a c) (scaledPos a i).x) :=
  rfl

@[simp] lemma wrapShift_y (a : Atoms) (c : ℚ) (i : ℕ) :
    (wrapShift a c i).y =
      axisWrap a.pbc.2.1 (nbins2 a c)
        (axisRaw (nbins2 a c) (scaledPos a i).y) :=
  rfl

@[simp] lemma wrapShift_z (a : Atoms) (c : ℚ) (i : ℕ) :
    (wrapShift a c i).z =
      axisWrap a.pbc.2.2 (nbins3 a c)
        (axisRaw (nbins3 a c) (scaledPos a i).z) :=
  rfl

@[simp] lemma targetBin_x (a : Atoms) (c : ℚ) (B d : IVec3) :
    (targetBin a c B d).x = (B.x + d.x) % ((nbins1 a c : ℕ) : ℤ) := rfl

@[simp] lemma targetBin_y (a : Atoms) (c : ℚ) (B d : IVec3) :
    (targetBin a c B d).y = (B.y + d.y) % ((nbins2 a c : ℕ) : ℤ) := rfl

@[simp] lemma targetBin_z (a : Atoms) (c : ℚ) (B d : IVec3) :
    (targetBin a c B d).z = (B.z + d.z) % ((nbins3 a c : ℕ) : ℤ) := rfl

@[simp] lemma divShift_x (a : Atoms) (c : ℚ) (B d : IVec3) :
    (divShift a c B d).x = (B.x + d.x) / ((nbins1 a c : ℕ) : ℤ) := rfl

@[simp] lemma divShift_y (a : Atoms) (c : ℚ) (B d : IVec3) :
    (divShift a c B d).y = (B.y + d.y) / ((nbins2 a c : ℕ) : ℤ) := rfl

@[simp] lemma divShift_z (a : Atoms) (c : ℚ) (B d : IVec3) :
    (divShift a c B d).z = (B.z + d.z) / ((nbins3 a c : ℕ) : ℤ) := rfl

/-- Scaled-coordinate form of the displacement along the first axis. -/
lemma scaled_diff_eq_dot1 (a : Atoms) (hdet : a.cell.det ≠ 0)
    (i j : ℕ) (S : IVec3) :
    (scaledPos a j).x - (scaledPos a i).x + ((S.x : ℤ) : ℚ) =
      ((a.positions.getD j 0) - (a.positions.getD i 0) +
        Mat3.ivecMul S a.cell).dot a.cell.inv.col1 := by
  rw [Vec3.dot_add_left, Vec3.dot_sub_left]
  unfold scaledPos
  rw [Mat3.vecMul_x_eq_dot_col1, Mat3.vecMul_x_eq_dot_col1]
  unfold Mat3.ivecMul
  rw [Mat3.vecMul_dot_invcol1 a.cell hdet S.toVec3]
  rfl

lemma scaled_diff_eq_dot2 (a : Atoms) (hdet : a.cell.det ≠ 0)
    (i j : ℕ) (S : IVec3) :
    (scaledPos a j).y - (scaledPos a i).y + ((S.y : ℤ) : ℚ) =
      ((a.positions.getD j 0) - (a.positions.getD i 0) +
        Mat3.ivecMul S a.cell).dot a.cell.inv.col2 := by
  rw [Vec3.dot_add_left, Vec3.dot_sub_left]
  unfold scaledPos
  rw [Mat3.vecMul_y_eq_dot_col2, Mat3.vecMul_y_eq_dot_col2]
  unfold Mat3.ivecMul
  rw [Mat3.vecMul_dot_invcol2 a.cell hdet S.toVec3]
  rfl

lemma scaled_diff_eq_dot3 (a : Atoms) (hdet : a.cell.det ≠ 0)
    (i j : ℕ) (S : IVec3) :
    (scaledPos a j).z - (scaledPos a i).z + ((S.z : ℤ) : ℚ) =
      ((a.positions.getD j 0) - (a.positions.getD i 0) +
        Mat3.ivecMul S a.cell).dot a.cell.inv.col3 := by
  rw [Vec3.dot_add_left, Vec3.dot_sub_left]
  unfold scaledPos
  rw [Mat3.vecMul_z_eq_dot_col3, Mat3.vecMul_z_eq_dot_col3]
  unfold Mat3.ivecMul
  rw [Mat3.vecMul_dot_invcol3 a.cell hdet S.toVec3]
  rfl

/-- Completeness of the candidate enumeration: every admissible pair whose
displacement is strictly inside the coarse cutoff is in the raw candidate
list. -/
lemma raw_complete {a : Atoms} {c : ℚ} (hdet : a.cell.det ≠ 0) (hc : 0 < c)
    {i j : ℕ} (hi : i < a.positions.length) (hj : j < a.positions.length)
    {S : IVec3} (hpbc : pbcOKS a S)
    (hdist : ((a.positions.getD j 0) - (a.positions.getD i 0) +
      Mat3.ivecMul S a.cell).sq < c ^ 2) :
    (i, j, S) ∈ rawPairs a c := by
  set D : Vec3 := (a.positions.getD j 0) - (a.positions.getD i 0) +
    Mat3.ivecMul S a.cell with hDdef
  have hDsq : 0 ≤ D.sq := D.sq_nonneg'
  have hbb1 : 0 < recipSq1 a.cell := Mat3.invcol1_sq_pos a.cell hdet
  have hbb2 : 0 < recipSq2 a.cell := Mat3.invcol2_sq_pos a.cell hdet
  have hbb3 : 0 < recipSq3 a.cell := Mat3.invcol3_sq_pos a.cell hdet
  have ht1 : ((scaledPos a j).x - (scaledPos a i).x + ((S.x : ℤ) : ℚ)) ^ 2 <
      c ^ 2 * recipSq1 a.cell := by
    rw [scaled_diff_eq_dot1 a hdet i j S]
    have hcs := Vec3.dot_sq_le_sq_mul_sq D (a.cell.inv.col1)
    calc (D.dot a.cell.inv.col1) ^ 2 ≤ D.sq * recipSq1 a.cell := hcs
      _ < c ^ 2 * recipSq1 a.cell := by
          exact mul_lt_mul_of_pos_right hdist hbb1
  have ht2 : ((scaledPos a j).y - (scaledPos a i).y + ((S.y : ℤ) : ℚ)) ^ 2 <
      c ^ 2 * recipSq2 a.cell := by
    rw [scaled_diff_eq_dot2 a hdet i j S]
    have hcs := Vec3.dot_sq_le_sq_mul_sq D (a.cell.inv.col2)
    calc (D.dot a.cell.inv.col2) ^ 2 ≤ D.sq * recipSq2 a.cell := hcs
      _ < c ^ 2 * recipSq2 a.cell := by
          exact mul_lt_mul_of_pos_right hdist hbb2
  have ht3 : ((scaledPos a j).z - (scaledPos a i).z + ((S.z : ℤ) : ℚ)) ^ 2 <
      c ^ 2 * recipSq3 a.cell := by
    rw [scaled_diff_eq_dot3 a hdet i j S]
    have hcs := Vec3.dot_sq_le_sq_mul_sq D (a.cell.inv.col3)
    calc (D.dot a.cell.inv.col3) ^ 2 ≤ D.sq * recipSq3 a.cell := hcs
      _ < c ^ 2 * recipSq3 a.cell := by
          exact mul_lt_mul_of_pos_right hdist hbb3
  obtain ⟨d1, hd1lo, hd1hi, hd1mod, hd1div⟩ :=
    axis_complete a.pbc.1 c (recipSq1 a.cell) hc hbb1
      (scaledPos a i).x (scaledPos a j).x S.x (fun h => hpbc.1 h) ht1
  obtain ⟨d2, hd2lo, hd2hi, hd2mod, hd2div⟩ :=
    axis_complete a.pbc.2.1 c (recipSq2 a.cell) hc hbb2
      (scaledPos a i).y (scaledPos a j).y S.y (fun h => hpbc.2.1 h) ht2
  obtain ⟨d3, hd3lo, hd3hi, hd3mod, hd3div⟩ :=
    axis_complete a.pbc.2.2 c (recipSq3 a.cell) hc hbb3
      (scaledPos a i).z (scaledPos a j).z S.z (fun h => hpbc.2.2 h) ht3
  refine mem_rawPairs.mpr ⟨S - wrapShift a c i + wrapShift a c j, ?_, ?_⟩
  · refine mem_emitPairs.mpr ⟨hi, hj, ⟨d1, d2, d3⟩, ?_, ?_, ?_⟩
    · rw [mem_offsetList]
      exact ⟨⟨hd1lo, hd1hi⟩, ⟨hd2lo, hd2hi⟩, ⟨hd3lo, hd3hi⟩⟩
    · rw [IVec3.ext_iff']
      refine ⟨?_, ?_, ?_⟩
      · rw [targetBin_x, cartBin_x, cartBin_x]
        exact hd1mod
      · rw [targetBin_y, cartBin_y, cartBin_y]
        exact hd2mod
      · rw [targetBin_z, cartBin_z, cartBin_z]
        exact hd3mod
    · rw [IVec3.ext_iff']
      refine ⟨?_, ?_, ?_⟩
      · rw [divShift_x, cartBin_x]
        rw [IVec3.add_ix, IVec3.sub_ix, wrapShift_x, wrapShift_x]
        dsimp only
        exact hd1div.symm
      · rw [divShift_y, cartBin_y]
        rw [IVec3.add_iy, IVec3.sub_iy, wrapShift_y, wrapShift_y]
        dsimp only
        exact hd2div.symm
      · rw [divShift_z, cartBin_z]
        rw [IVec3.add_iz, IVec3.sub_iz, wrapShift_z, wrapShift_z]
        dsimp only
        exact hd3div.symm
  · rw [IVec3.ext_iff']
    refine ⟨?_, ?_, ?_⟩ <;> · simp only [IVec3.add_ix, IVec3.add_iy,
      IVec3.add_iz, IVec3.sub_ix, IVec3.sub_iy, IVec3.sub_iz]; ring

lemma le_foldl_max (l : List ℚ) (b : ℚ) :
    b ≤ l.foldl max b ∧ ∀ x ∈ l, x ≤ l.foldl max b := by
  induction l generalizing b with
  | nil => exact ⟨le_refl b, by simp⟩
  | cons y ys ih =>
    obtain ⟨h1, h2⟩ := ih (max b y)
    refine ⟨le_trans (le_max_left b y) h1, ?_⟩
    intro x hx
    rcases List.mem_cons.mp hx with rfl | hx'
    · exact le_trans (le_max_right b x) h1
    · exact h2 x hx'

lemma le_maxQ {l : List ℚ} {x : ℚ} (h : x ∈ l) : x ≤ maxQ l := by
  cases l with
  | nil => cases h
  | cons y ys =>
    unfold maxQ
    rcases List.mem_cons.mp h with rfl | hx'
    · exact (le_foldl_max ys x).1
    · exact (le_foldl_max ys y).2 x hx'

lemma getD_mem_of_lt {l : List ℚ} {i : ℕ} (h : i < l.length) :
    l.getD i 0 ∈ l := by
  rw [List.getD_eq_getElem l 0 h]
  exact List.getElem_mem h

/-- Any admissible candidate in the raw list survives the self/pbc filters
and the sort. -/
lemma stage_mem_of_raw {a : Atoms} {c : ℚ} {si : Bool} {i j : ℕ} {S : IVec3}
    (hmem : (i, j, S) ∈ rawPairs a c)
    (hself : si = false → ¬(i = j ∧ S = (0 : IVec3)))
    (hpbc : pbcOKS a S) :
    (i, j, S) ∈ sortPairs (pbcFiltered a (selfFiltered a c si)) := by
  rw [mem_sortPairs, mem_pbcFiltered, mem_selfFiltered]
  exact ⟨⟨hmem, hself⟩, hpbc⟩

/-- A successful per-atom-cutoff run of `neighbor_list` exists whenever the
cutoff array and the configuration are nonempty. -/
lemma neighbor_list_perAtom_isOk {a : Atoms} {cs : List ℚ} {si : Bool}
    (hcs : cs ≠ []) (hN : a.positions.length ≠ 0) :
    ∃ out, neighbor_list a (.perAtom cs) si = .ok out := by
  unfold neighbor_list maxCutoffE
  cases cs with
  | nil => exact absurd rfl hcs
  | cons c0 crest =>
    dsimp only
    rw [if_neg hN]
    exact ⟨_, rfl⟩

/-- Completeness of `neighbor_list` with a per-atom cutoff array: every
admissible pair whose displacement is strictly below the sum of the two
atomic radii is returned. -/
lemma neighbor_list_complete_perAtom {a : Atoms} {cs : List ℚ} {si : Bool}
    {out : List PairRec} (h : neighbor_list a (.perAtom cs) si = .ok out)
    (hdet : a.cell.det ≠ 0) {i j : ℕ} (hi : i < a.positions.length)
    (hj : j < a.positions.length) {S : IVec3} (hpbc : pbcOKS a S)
    (hself : si = false → ¬(i = j ∧ S = (0 : IVec3)))
    (hpos : 0 ≤ cs.getD i 0 + cs.getD j 0)
    (hlen : cs.length = a.positions.length)
    (hdist : (pairRecOf a (i, j, S)).sqd <
      (cs.getD i 0 + cs.getD j 0) ^ 2) :
    pairRecOf a (i, j, S) ∈ out := by
  obtain ⟨c, hc, hN, rfl⟩ := neighbor_list_ok h
  have hcs : cs ≠ [] := by
    intro hnil
    rw [hnil] at hlen
    simp at hlen
    omega
  have hcval : c = 2 * maxQ cs := by
    unfold maxCutoffE at hc
    cases cs with
    | nil => exact absurd rfl hcs
    | cons c0 crest => exact (Except.ok.inj hc).symm
  have hsum_le : cs.getD i 0 + cs.getD j 0 ≤ c := by
    rw [hcval]
    have h1 : cs.getD i 0 ≤ maxQ cs := le_maxQ (getD_mem_of_lt (by omega))
    have h2 : cs.getD j 0 ≤ maxQ cs := le_maxQ (getD_mem_of_lt (by omega))
    linarith
  have hsqd0 : 0 ≤ (pairRecOf a (i, j, S)).sqd := by
    unfold pairRecOf
    exact Vec3.sq_nonneg' _
  have hsum_pos : 0 < cs.getD i 0 + cs.getD j 0 := by
    rcases eq_or_lt_of_le hpos with heq | hlt
    · exfalso
      rw [← heq] at hdist
      simp at hdist
      linarith
    · exact hlt
  have hcpos : 0 < c := lt_of_lt_of_le hsum_pos hsum_le
  have hdistc : (pairRecOf a (i, j, S)).sqd < c ^ 2 := by
    calc (pairRecOf a (i, j, S)).sqd < (cs.getD i 0 + cs.getD j 0) ^ 2 :=
        hdist
      _ ≤ c ^ 2 := by nlinarith
  have hraw : (i, j, S) ∈ rawPairs a c := by
    apply raw_complete hdet hcpos hi hj hpbc
    have : (pairRecOf a (i, j, S)).sqd =
        ((a.positions.getD j 0) - (a.positions.getD i 0) +
          Mat3.ivecMul S a.cell).sq := rfl
    rw [← this]
    exact hdistc
  have hstage := stage_mem_of_raw hraw hself hpbc
  rw [cutoffFiltered, List.mem_filter]
  constructor
  · rw [maxCutFiltered, List.mem_filter]
    refine ⟨?_, ?_⟩
    · rw [toRecs, List.mem_map]
      exact ⟨(i, j, S), hstage, rfl⟩
    · rw [distLtB_iff]
      exact ⟨le_of_lt hcpos, hdistc⟩
  · rw [distLtB_iff]
    exact ⟨hpos, hdist⟩

/-! ## Lemmas: uniqueness of the zero-shift self pair -/

lemma countP_flatMap {α β : Type} (l : List α) (f : α → List β)
    (p : β → Bool) :
    (l.flatMap f).countP p = (l.map fun a => (f a).countP p).sum := by
  induction l with
  | nil => rfl
  | cons x xs ih =>
    rw [List.flatMap_cons, List.countP_append, List.map_cons, List.sum_cons,
      ih]

lemma sum_indicator_of_count_one {α : Type} [DecidableEq α] (l : List α)
    (x : α) (K : ℕ) (g : α → ℕ)
    (hg : ∀ a ∈ l, g a = if a = x then K else 0) (hcount : l.count x = 1) :
    (l.map g).sum = K := by
  induction l with
  | nil => simp at hcount
  | cons y ys ih =>
    rw [List.map_cons, List.sum_cons]
    by_cases h : y = x
    · subst h
      have hcy : ys.count y = 0 := by
        have := List.count_cons_self y ys
        rw [List.count_cons_self] at hcount
        omega
      have hzero : ∀ b ∈ ys.map g, b = 0 := by
        intro b hb
        rw [List.mem_map] at hb
        obtain ⟨a, ha, rfl⟩ := hb
        rcases eq_or_ne a y with rfl | hne
        · exact absurd ha (List.count_eq_zero.mp hcy)
        · rw [hg a (List.mem_cons_of_mem _ ha), if_neg hne]
      rw [List.sum_eq_zero hzero, hg y (List.mem_cons_self y ys), if_pos rfl]
      omega
    · rw [hg y (List.mem_cons_self y ys), if_neg h]
      have hcount' : ys.count x = 1 := by
        rw [List.count_cons_of_ne (Ne.symm h)] at hcount
        exact hcount
      rw [ih (fun a ha => hg a (List.mem_cons_of_mem _ ha)) hcount']
      omega

lemma binList_nodup (a : Atoms) (c : ℚ) (B : IVec3) :
    (binList a c B).Nodup :=
  (List.nodup_range _).filter _

lemma rangeSym_nodup (n : ℕ) : (rangeSym n).Nodup := by
  unfold rangeSym
  refine (List.nodup_range _).map ?_
  intro x y h
  have h' : (x : ℤ) - (n : ℤ) = (y : ℤ) - (n : ℤ) := by simpa using h
  omega

lemma mem_rangeSym_zero (n : ℕ) : (0 : ℤ) ∈ rangeSym n := by
  rw [mem_rangeSym]
  omega

lemma offsetList_nodup (a : Atoms) (c : ℚ) : (offsetList a c).Nodup := by
  unfold offsetList
  rw [List.nodup_flatMap]
  constructor
  · intro dz _
    rw [List.nodup_flatMap]
    constructor
    · intro dy _
      refine (rangeSym_nodup _).map ?_
      intro x y h
      simpa using congrArg IVec3.x h
    · refine (rangeSym_nodup _).imp ?_
      intro dy1 dy2 hne
      intro t ht1 ht2
      rw [List.mem_map] at ht1 ht2
      obtain ⟨x1, _, rfl⟩ := ht1
      obtain ⟨x2, _, h2⟩ := ht2
      exact hne (Eq.symm (by simpa using congrArg IVec3.y h2))
  · refine (rangeSym_nodup _).imp ?_
    intro dz1 dz2 hne
    intro t ht1 ht2
    rw [List.mem_flatMap] at ht1 ht2
    obtain ⟨y1, _, hm1⟩ := ht1
    obtain ⟨y2, _, hm2⟩ := ht2
    rw [List.mem_map] at hm1 hm2
    obtain ⟨x1, _, rfl⟩ := hm1
    obtain ⟨x2, _, h2⟩ := hm2
    exact hne (Eq.symm (by simpa using congrArg IVec3.z h2))

lemma allBins_nodup (a : Atoms) (c : ℚ) : (allBins a c).Nodup := by
  unfold allBins
  rw [List.nodup_flatMap]
  constructor
  · intro b3 _
    rw [List.nodup_flatMap]
    constructor
    · intro b2 _
      refine (List.nodup_range _).map ?_
      intro x y h
      have h' : ((x : ℕ) : ℤ) = ((y : ℕ) : ℤ) := by simpa using congrArg IVec3.x h
      exact_mod_cast h' 
    · refine (List.nodup_range _).imp ?_
      intro y1 y2 hne
      intro t ht1 ht2
      rw [List.mem_map] at ht1 ht2
      obtain ⟨x1, _, rfl⟩ := ht1
      obtain ⟨x2, _, h2⟩ := ht2
      apply hne
      have h' := congrArg IVec3.y h2
      simp at h'
      omega
  · refine (List.nodup_range _).imp ?_
    intro z1 z2 hne
    intro t ht1 ht2
    rw [List.mem_flatMap] at ht1 ht2
    obtain ⟨y1, _, hm1⟩ := ht1
    obtain ⟨y2, _, hm2⟩ := ht2
    rw [List.mem_map] at hm1 hm2
    obtain ⟨x1, _, rfl⟩ := hm1
    obtain ⟨x2, _, h2⟩ := hm2
    apply hne
    have h' := congrArg IVec3.z h2
    simp at h'
    omega

/-- At offset zero, every in-range bin maps to itself with shift zero. -/
lemma divShift_zero (a : Atoms) (c : ℚ) {B : IVec3} (hB : B ∈ allBins a c) :
    divShift a c B 0 = 0 ∧ targetBin a c B 0 = B := by
  rw [mem_allBins] at hB
  obtain ⟨⟨hx0, hx1⟩, ⟨hy0, hy1⟩, ⟨hz0, hz1⟩⟩ := hB
  constructor
  · rw [IVec3.ext_iff']
    refine ⟨?_, ?_, ?_⟩ <;>
      · simp only [divShift_x, divShift_y, divShift_z, IVec3.zero_ix,
          IVec3.zero_iy, IVec3.zero_iz, add_zero]
        exact Int.ediv_eq_zero_of_lt (by assumption) (by assumption)
  · rw [IVec3.ext_iff']
    refine ⟨?_, ?_, ?_⟩ <;>
      · simp only [targetBin_x, targetBin_y, targetBin_z, IVec3.zero_ix,
          IVec3.zero_iy, IVec3.zero_iz, add_zero]
        exact Int.emod_eq_of_lt (by assumption) (by assumption)

/-- Conversely, an offset that maps an in-range bin to itself with shift
zero is the zero offset. -/
lemma offset_eq_zero_of_selfloop (a : Atoms) (c : ℚ) {B d : IVec3}
    (_hB : B ∈ allBins a c) (hσ : divShift a c B d = 0)
    (ht : targetBin a c B d = B) : d = 0 := by
  rw [IVec3.ext_iff'] at hσ ht ⊢
  obtain ⟨hσx, hσy, hσz⟩ := hσ
  obtain ⟨htx, hty, htz⟩ := ht
  have hx := Int.ediv_add_emod (B.x + d.x) ((nbins1 a c : ℕ) : ℤ)
  have hy := Int.ediv_add_emod (B.y + d.y) ((nbins2 a c : ℕ) : ℤ)
  have hz := Int.ediv_add_emod (B.z + d.z) ((nbins3 a c : ℕ) : ℤ)
  rw [divShift_x] at hσx
  rw [divShift_y] at hσy
  rw [divShift_z] at hσz
  rw [targetBin_x] at htx
  rw [targetBin_y] at hty
  rw [targetBin_z] at htz
  rw [hσx, htx] at hx
  rw [hσy, hty] at hy
  rw [hσz, htz] at hz
  simp only [IVec3.zero_ix, IVec3.zero_iy, IVec3.zero_iz] at hx hy hz ⊢
  omega

/-- Count of the zero-shift self pair of atom `i` in the inner double loop
of one (offset, source-bin) step. -/
lemma countP_inner_step (a : Atoms) (c : ℚ) (i : ℕ)
    (hi : i < a.positions.length) (d B : IVec3) :
    ((binList a c B).flatMap fun i' =>
        (binList a c (targetBin a c B d)).map fun j =>
          (i', j, divShift a c B d)).countP (isSelfPair i) =
      if B = cartBin a c i ∧ divShift a c B d = 0 ∧
          targetBin a c B d = cartBin a c i then 1 else 0 := by
  rw [countP_flatMap]
  by_cases hσ : divShift a c B d = 0
  · by_cases hB : B = cartBin a c i
    · have hcnt : (binList a c B).count i = 1 :=
        List.count_eq_one_of_mem (binList_nodup a c B)
          (mem_binList.mpr ⟨hi, hB.symm⟩)
      by_cases htgt : targetBin a c B d = cartBin a c i
      · rw [if_pos ⟨hB, hσ, htgt⟩]
        have hcntT : (binList a c (targetBin a c B d)).count i = 1 :=
          List.count_eq_one_of_mem (binList_nodup a c _)
            (mem_binList.mpr ⟨hi, htgt.symm⟩)
        rw [sum_indicator_of_count_one _ i 1 _ ?_ hcnt]
        intro b hb
        rw [List.countP_map]
        by_cases hbi : b = i
        · rw [if_pos hbi]
          have hcong : ∀ j ∈ binList a c (targetBin a c B d),
              ((isSelfPair i ∘ fun j => (b, j, divShift a c B d)) j = true ↔
                (decide (j = i) : Bool) = true) := by
            intro j _
            simp [isSelfPair, hσ, hbi]
          rw [List.countP_congr hcong]
          have hcc : (binList a c (targetBin a c B d)).countP
              (fun j => decide (j = i)) =
              (binList a c (targetBin a c B d)).count i := by
            rw [List.count]
            apply List.countP_congr
            intro j _
            simp
          rw [hcc]
          exact hcntT
        · rw [if_neg hbi, List.countP_eq_zero]
          intro j _
          simp [isSelfPair, hbi]
      · rw [if_neg (by rintro ⟨_, _, h⟩; exact htgt h)]
        apply List.sum_eq_zero
        intro v hv
        rw [List.mem_map] at hv
        obtain ⟨b, hb, rfl⟩ := hv
        rw [List.countP_map, List.countP_eq_zero]
        intro j hj
        rcases eq_or_ne j i with rfl | hne
        · obtain ⟨_, hcart⟩ := mem_binList.mp hj
          exact fun _ => htgt hcart.symm
        · simp [isSelfPair, hne]
    · rw [if_neg (by rintro ⟨h, _⟩; exact hB h)]
      apply List.sum_eq_zero
      intro v hv
      rw [List.mem_map] at hv
      obtain ⟨b, hb, rfl⟩ := hv
      rw [List.countP_map, List.countP_eq_zero]
      intro j _
      rcases eq_or_ne b i with rfl | hne
      · obtain ⟨_, hcart⟩ := mem_binList.mp hb
        exact absurd hcart.symm hB
      · simp [isSelfPair, hne]
  · rw [if_neg (by rintro ⟨_, h, _⟩; exact hσ h)]
    apply List.sum_eq_zero
    intro v hv
    rw [List.mem_map] at hv
    obtain ⟨b, hb, rfl⟩ := hv
    rw [List.countP_map, List.countP_eq_zero]
    intro j _
    simp [isSelfPair, hσ]

/-- The zero-shift self pair of every atom is emitted exactly once by the
main search loop. -/
lemma countP_emit_selfPair (a : Atoms) (c : ℚ) (i : ℕ)
    (hi : i < a.positions.length) :
    (emitPairs a c).countP (isSelfPair i) = 1 := by
  unfold emitPairs
  rw [countP_flatMap]
  have hBmem : cartBin a c i ∈ allBins a c := cartBin_mem_allBins a c i
  have hcount0 : (offsetList a c).count (0 : IVec3) = 1 :=
    List.count_eq_one_of_mem (offsetList_nodup a c)
      (mem_offsetList.mpr (by refine ⟨⟨?_, ?_⟩, ⟨?_, ?_⟩, ⟨?_, ?_⟩⟩ <;>
        simp))
  have hcountB : (allBins a c).count (cartBin a c i) = 1 :=
    List.count_eq_one_of_mem (allBins_nodup a c) hBmem
  refine sum_indicator_of_count_one _ _ 1 _ ?_ hcount0
  intro d hd
  dsimp only
  rw [countP_flatMap]
  have hinner := sum_indicator_of_count_one (allBins a c) (cartBin a c i)
    (if divShift a c (cartBin a c i) d = 0 ∧
      targetBin a c (cartBin a c i) d = cartBin a c i then 1 else 0)
    (fun B => ((binList a c B).flatMap fun i' =>
      (binList a c (targetBin a c B d)).map fun j =>
        (i', j, divShift a c B d)).countP (isSelfPair i)) ?_ hcountB
  · rw [hinner]
    by_cases hd0 : d = (0 : IVec3)
    · rw [if_pos hd0, hd0,
        if_pos ⟨(divShift_zero a c hBmem).1, (divShift_zero a c hBmem).2⟩]
    · rw [if_neg hd0, if_neg]
      rintro ⟨hσ, htgt⟩
      exact hd0 (offset_eq_zero_of_selfloop a c hBmem hσ htgt)
  · intro B _
    dsimp only
    rw [countP_inner_step a c i hi d B]
    by_cases hB : B = cartBin a c i
    · rw [hB]
      simp
    · simp [hB]

@[simp] lemma pairRecOf_fst (a : Atoms) (t : ℕ × ℕ × IVec3) :
    (pairRecOf a t).fst = t.1 := rfl

@[simp] lemma pairRecOf_snd (a : Atoms) (t : ℕ × ℕ × IVec3) :
    (pairRecOf a t).snd = t.2.1 := rfl

@[simp] lemma pairRecOf_shift (a : Atoms) (t : ℕ × ℕ × IVec3) :
    (pairRecOf a t).shift = t.2.2 := rfl

lemma pairRecOf_disp (a : Atoms) (t : ℕ × ℕ × IVec3) :
    (pairRecOf a t).disp = (a.positions.getD t.2.1 0) -
      (a.positions.getD t.1 0) + Mat3.ivecMul t.2.2 a.cell := rfl

lemma pairRecOf_sqd (a : Atoms) (t : ℕ × ℕ × IVec3) :
    (pairRecOf a t).sqd = (pairRecOf a t).disp.sq := rfl

lemma pairRecOf_self_sqd (a : Atoms) (i : ℕ) :
    (pairRecOf a (i, i, (0 : IVec3))).sqd = 0 := by
  rw [pairRecOf_sqd, pairRecOf_disp]
  rw [Mat3.ivecMul_zero]
  simp [Vec3.sq, Vec3.dot]

lemma countP_filter_of_imp {α : Type} (l : List α) (Q R : α → Bool)
    (h : ∀ t ∈ l, Q t = true → R t = true) :
    (l.filter R).countP Q = l.countP Q := by
  rw [List.countP_filter]
  apply List.countP_congr
  intro t ht
  cases hq : Q t with
  | true => simp [hq, h t ht hq]
  | false => simp [hq]

lemma countP_condFilter {α : Type} (p : Bool) (l : List α) (Q R : α → Bool)
    (h : ∀ t, Q t = true → R t = true) :
    (if p then l else l.filter R).countP Q = l.countP Q := by
  cases p with
  | true => rfl
  | false => exact countP_filter_of_imp l Q R fun t _ => h t

lemma selfPair_shift_zero {i : ℕ} {t : ℕ × ℕ × IVec3}
    (h : isSelfPair i t = true) : t.2.2 = (0 : IVec3) := by
  unfold isSelfPair at h
  simp only [Bool.and_eq_true, decide_eq_true_eq] at h
  exact h.2

lemma countP_pbcFiltered_selfPair (a : Atoms) (i : ℕ)
    (l : List (ℕ × ℕ × IVec3)) :
    (pbcFiltered a l).countP (isSelfPair i) = l.countP (isSelfPair i) := by
  unfold pbcFiltered
  rw [countP_condFilter a.pbc.2.2 _ _ _ ?_, countP_condFilter a.pbc.2.1 _ _ _
    ?_, countP_condFilter a.pbc.1 _ _ _ ?_]
  · intro t ht
    rw [selfPair_shift_zero ht]
    rfl
  · intro t ht
    rw [selfPair_shift_zero ht]
    rfl
  · intro t ht
    rw [selfPair_shift_zero ht]
    rfl

lemma countP_rawPairs_selfPair (a : Atoms) (c : ℚ) (i : ℕ) :
    (rawPairs a c).countP (isSelfPair i) =
      (emitPairs a c).countP (isSelfPair i) := by
  unfold rawPairs
  rw [List.countP_map]
  apply List.countP_congr
  intro t _
  obtain ⟨t1, t2, S⟩ := t
  show (isSelfPair i
      (t1, t2, S + wrapShift a c t1 - wrapShift a c t2) = true) ↔
    (isSelfPair i (t1, t2, S) = true)
  unfold isSelfPair
  simp only [Bool.and_eq_true, decide_eq_true_eq]
  constructor
  · rintro ⟨⟨h1, h2⟩, h3⟩
    subst h1
    subst h2
    refine ⟨⟨rfl, rfl⟩, ?_⟩
    rw [IVec3.ext_iff'] at h3 ⊢
    simp only [IVec3.add_ix, IVec3.add_iy, IVec3.add_iz, IVec3.sub_ix,
      IVec3.sub_iy, IVec3.sub_iz, IVec3.zero_ix, IVec3.zero_iy,
      IVec3.zero_iz] at h3 ⊢
    omega
  · rintro ⟨⟨h1, h2⟩, h3⟩
    subst h1
    subst h2
    refine ⟨⟨rfl, rfl⟩, ?_⟩
    rw [IVec3.ext_iff'] at h3 ⊢
    simp only [IVec3.add_ix, IVec3.add_iy, IVec3.add_iz, IVec3.sub_ix,
      IVec3.sub_iy, IVec3.sub_iz, IVec3.zero_ix, IVec3.zero_iy,
      IVec3.zero_iz] at h3 ⊢
    omega

/-- With `self_interaction = True` and a positive scalar cutoff, the final
output contains the zero-shift self pair of atom `i` exactly once. -/
lemma countP_out_selfPair {a : Atoms} {c : ℚ} {out : List PairRec}
    (h : neighbor_list a (.scalar c) true = .ok out) (hc : 0 < c)
    {i : ℕ} (hi : i < a.positions.length) :
    out.countP (recIsSelfPair i) = 1 := by
  obtain ⟨c', hc', hN, rfl⟩ := neighbor_list_ok h
  have hcc : c' = c := by
    unfold maxCutoffE at hc'
    exact (Except.ok.inj hc').symm
  subst hcc
  show (maxCutFiltered c' (toRecs a (sortPairs (pbcFiltered a
    (selfFiltered a c' true))))).countP (recIsSelfPair i) = 1
  rw [maxCutFiltered, countP_filter_of_imp _ _ _ ?_]
  · rw [toRecs, List.countP_map]
    have hcongr : ∀ t ∈ sortPairs (pbcFiltered a (selfFiltered a c' true)),
        ((recIsSelfPair i ∘ pairRecOf a) t = true ↔ isSelfPair i t = true) := by
      intro t _
      unfold recIsSelfPair isSelfPair
      simp
    rw [List.countP_congr hcongr]
    unfold sortPairs
    rw [(List.perm_insertionSort _ _).countP_eq]
    rw [countP_pbcFiltered_selfPair]
    show (rawPairs a c').countP (isSelfPair i) = 1
    rw [countP_rawPairs_selfPair]
    exact countP_emit_selfPair a c' i hi
  · intro p hp hQ
    rw [toRecs, List.mem_map] at hp
    obtain ⟨t, _, rfl⟩ := hp
    unfold recIsSelfPair at hQ
    simp only [Bool.and_eq_true, decide_eq_true_eq, pairRecOf_fst,
      pairRecOf_snd, pairRecOf_shift] at hQ
    have ht' : t = (i, i, (0 : IVec3)) := by
      obtain ⟨t1, t2, t3⟩ := t
      simp_all
    rw [ht', pairRecOf_self_sqd]
    rw [distLtB_iff]
    exact ⟨le_of_lt hc, by positivity⟩

lemma mem_of_mem_cutoffFiltered {cut : NLCutoff} {a : Atoms}
    {l : List PairRec} {p : PairRec} (hp : p ∈ cutoffFiltered cut a l) :
    p ∈ l := by
  cases cut with
  | scalar c => exact hp
  | table es => exact (List.mem_filter.mp hp).1
  | perAtom cs => exact (List.mem_filter.mp hp).1

/-- Every returned record's displacement and squared distance satisfy the
defining formulas. -/
lemma out_disp_eq {a : Atoms} {cut : NLCutoff} {si : Bool}
    {out : List PairRec} (h : neighbor_list a cut si = .ok out)
    {p : PairRec} (hp : p ∈ out) :
    p.disp = (a.positions.getD p.snd 0) - (a.positions.getD p.fst 0) +
      Mat3.ivecMul p.shift a.cell ∧ p.sqd = p.disp.sq := by
  obtain ⟨c, hc, hN, rfl⟩ := neighbor_list_ok h
  have hp' := mem_of_mem_cutoffFiltered hp
  rw [maxCutFiltered, List.mem_filter] at hp'
  obtain ⟨hmem, _⟩ := hp'
  rw [toRecs, List.mem_map] at hmem
  obtain ⟨t, _, rfl⟩ := hmem
  exact ⟨rfl, rfl⟩

/-- Every record returned under a scalar cutoff passed the strict distance
test. -/
lemma out_distLt_scalar {a : Atoms} {c : ℚ} {si : Bool}
    {out : List PairRec} (h : neighbor_list a (.scalar c) si = .ok out)
    {p : PairRec} (hp : p ∈ out) : distLtB p.sqd c = true := by
  obtain ⟨c', hc', hN, rfl⟩ := neighbor_list_ok h
  have hcc : c' = c := by
    unfold maxCutoffE at hc'
    exact (Except.ok.inj hc').symm
  subst hcc
  have hp' := mem_of_mem_cutoffFiltered hp
  rw [maxCutFiltered, List.mem_filter] at hp'
  exact hp'.2

/-- With `self_interaction = False` no zero-shift self pair is returned. -/
lemma no_self_mem {a : Atoms} {cut : NLCutoff} {out : List PairRec}
    (h : neighbor_list a cut false = .ok out) {p : PairRec} (hp : p ∈ out) :
    ¬(p.fst = p.snd ∧ p.shift = (0 : IVec3)) := by
  obtain ⟨c, hc, hN, rfl⟩ := neighbor_list_ok h
  have hp' := mem_of_mem_cutoffFiltered hp
  rw [maxCutFiltered, List.mem_filter] at hp'
  obtain ⟨hmem, _⟩ := hp'
  rw [toRecs, List.mem_map] at hmem
  obtain ⟨t, ht, rfl⟩ := hmem
  rw [mem_sortPairs, mem_pbcFiltered, mem_selfFiltered] at ht
  have hno := ht.1.2 rfl
  simpa using hno

/-! ## Lemmas: the CSR index builder `first_neighbors` -/

lemma getD_set' (l : List ℤ) (m k : ℕ) (v d : ℤ) :
    (l.set m v).getD k d =
      if m = k ∧ m < l.length then v else l.getD k d := by
  rcases eq_or_ne m k with rfl | hne
  · by_cases hm : m < l.length
    · simp [List.getD_eq_getElem?_getD, List.getElem?_set, hm]
    · have h0 : l[m]? = none := List.getElem?_eq_none (by omega)
      simp [List.getD_eq_getElem?_getD, List.getElem?_set, hm, h0]
  · simp [List.getD_eq_getElem?_getD, List.getElem?_set, hne]

lemma getD_replicate' (n k : ℕ) (x d : ℤ) (h : k < n) :
    (List.replicate n x).getD k d = x := by
  simp [List.getD_eq_getElem?_getD, List.getElem?_replicate, h]

lemma getD_irrel (l : List ℤ) (k : ℕ) (h : k < l.length) (d d' : ℤ) :
    l.getD k d = l.getD k d' := by
  simp [List.getD_eq_getElem?_getD, List.getElem?_eq_getElem h]

lemma countBelow_mono (i : List ℕ) {k k' : ℕ} (h : k ≤ k') :
    countBelow i k ≤ countBelow i k' := by
  unfold countBelow
  apply List.countP_mono_left
  intro x _ hx
  simp only [decide_eq_true_eq] at hx ⊢
  omega

lemma countBelow_succ_count (i : List ℕ) (k : ℕ) :
    countBelow i (k + 1) = countBelow i k + i.count k := by
  unfold countBelow
  induction i with
  | nil => rfl
  | cons y ys ih =>
    rw [List.countP_cons, List.countP_cons, List.count_cons, ih]
    rcases Nat.lt_trichotomy y k with hlt | rfl | hgt
    · have h1 : decide (y < k + 1) = true := by simp; omega
      have h2 : decide (y < k) = true := by simp; omega
      have h3 : (y == k) = false := by simp; omega
      simp only [h1, h2, h3, Bool.false_eq_true, if_true, if_false]
      omega
    · simp
      omega
    · have h1 : decide (y < k + 1) = false := by simp; omega
      have h2 : decide (y < k) = false := by simp; omega
      have h3 : (y == k) = false := by simp; omega
      simp only [h1, h2, h3, Bool.false_eq_true, if_false]
      omega

lemma countBelow_succ_of_not_mem (i : List ℕ) (k : ℕ) (hk : k ∉ i) :
    countBelow i (k + 1) = countBelow i k := by
  rw [countBelow_succ_count, List.count_eq_zero_of_not_mem hk, Nat.add_zero]

lemma countBelow_all (i : List ℕ) (nat : ℕ) (hbnd : ∀ x ∈ i, x < nat) :
    countBelow i nat = i.length := by
  unfold countBelow
  rw [List.countP_eq_length]
  intro x hx
  simp only [decide_eq_true_eq]
  exact hbnd x hx

lemma countBelow_head (i : List ℕ) (hsort : List.Sorted (· ≤ ·) i)
    (hne : i ≠ []) : countBelow i (i.headD 0) = 0 := by
  unfold countBelow
  rw [List.countP_eq_zero]
  intro x hx
  simp only [decide_eq_true_eq]
  cases i with
  | nil => exact absurd rfl hne
  | cons y ys =>
    simp only [List.headD_cons]
    rcases List.mem_cons.mp hx with rfl | hmem
    · omega
    · have := (List.sorted_cons.mp hsort).1 x hmem
      omega

lemma sorted_getElem_le (i : List ℕ) (hsort : List.Sorted (· ≤ ·) i)
    {p q : ℕ} (hpq : p ≤ q) (hq : q < i.length) :
    i[p] ≤ i[q] := by
  rcases eq_or_lt_of_le hpq with rfl | hlt
  · exact le_refl _
  · exact List.pairwise_iff_getElem.mp hsort p q (by omega) hq hlt

/-- The count below a boundary value equals the boundary position. -/
lemma countBelow_boundary (i : List ℕ) (hsort : List.Sorted (· ≤ ·) i)
    {p : ℕ} (hp : p + 1 < i.length) (hdiff : i[p] ≠ i[p + 1]) :
    countBelow i (i[p + 1]) = p + 1 := by
  have hlt : i[p] < i[p + 1] :=
    lt_of_le_of_ne (sorted_getElem_le i hsort (by omega) hp) hdiff
  have key : ∀ v : ℕ, v = i[p + 1] →
      i.countP (fun x => decide (x < v)) = p + 1 := by
    intro v hv
    conv_lhs => rw [← List.take_append_drop (p + 1) i]
    rw [List.countP_append]
    have h1 : (i.take (p + 1)).countP (fun x => decide (x < v)) =
        (i.take (p + 1)).length := by
      rw [List.countP_eq_length]
      intro x hx
      simp only [decide_eq_true_eq]
      obtain ⟨q, hq, rfl⟩ := List.mem_iff_getElem.mp hx
      rw [List.getElem_take]
      have hq' : q ≤ p := by
        rw [List.length_take] at hq
        omega
      have := sorted_getElem_le i hsort hq' (by omega : p < i.length)
      omega
    have h2 : (i.drop (p + 1)).countP (fun x => decide (x < v)) = 0 := by
      rw [List.countP_eq_zero]
      intro x hx
      simp only [decide_eq_true_eq]
      obtain ⟨q, hq, rfl⟩ := List.mem_iff_getElem.mp hx
      rw [List.getElem_drop]
      rw [List.length_drop] at hq
      have := sorted_getElem_le i hsort
        (by omega : p + 1 ≤ p + 1 + q) (by omega : p + 1 + q < i.length)
      omega
    rw [h1, h2, List.length_take]
    omega
  exact key _ rfl

lemma boundarySet_as_fold (i : List ℕ) (s : List ℤ) :
    boundarySet i s = boundaryPrefix i (i.length - 1) s := rfl

lemma passFill_length (s : List ℤ) : (passFill s).length = s.length := by
  induction s with
  | nil => rfl
  | cons v rest ih => simp [passFill, ih]

lemma passFill_getD (s : List ℤ) (k : ℕ) (hk : k < s.length) :
    (passFill s).getD k 0 =
      if s.getD k 0 = -1 then s.getD (k + 1) (-1) else s.getD k 0 := by
  induction s generalizing k with
  | nil => simp at hk
  | cons v rest ih =>
    cases k with
    | zero =>
      simp only [passFill, List.getD_cons_zero, List.getD_cons_succ]
      have hh : rest.getD 0 (-1) = rest.headD (-1) := by cases rest <;> rfl
      rw [hh]
    | succ k =>
      simp only [passFill, List.getD_cons_succ]
      exact ih k (by simp at hk; omega)

lemma countNeg_cons (v : ℤ) (rest : List ℤ) :
    countNeg (v :: rest) = countNeg rest + if v = -1 then 1 else 0 := by
  unfold countNeg
  rw [List.countP_cons]
  by_cases hv : v = -1 <;> simp [hv]

lemma countNeg_passFill_le (s : List ℤ) :
    countNeg (passFill s) ≤ countNeg s := by
  induction s with
  | nil => exact le_refl _
  | cons v rest ih =>
    simp only [passFill]
    rw [countNeg_cons, countNeg_cons]
    have hhead : (if (if v = -1 then rest.headD (-1) else v) = -1 then 1 else 0)
        ≤ (if v = -1 then (1 : ℕ) else 0) := by
      by_cases hv : v = -1
      · simp only [hv, if_true]
        split <;> omega
      · simp [hv]
    omega

lemma countNeg_passFill_lt :
    ∀ s : List ℤ, (-1 : ℤ) ∈ s → (∀ h : s ≠ [], s.getLast h ≠ -1) →
    countNeg (passFill s) < countNeg s := by
  intro s
  induction s with
  | nil => intro hmem _; simp at hmem
  | cons v rest ih =>
    intro hmem hlast
    simp only [passFill]
    rw [countNeg_cons, countNeg_cons]
    by_cases hrest : (-1 : ℤ) ∈ rest
    · have hrne : rest ≠ [] := List.ne_nil_of_mem hrest
      have hlast' : ∀ h : rest ≠ [], rest.getLast h ≠ -1 := by
        intro h
        have hc := hlast (by simp)
        rwa [List.getLast_cons h] at hc
      have htail := ih hrest hlast'
      have hhead : (if (if v = -1 then rest.headD (-1) else v) = -1 then 1 else 0)
          ≤ (if v = -1 then (1 : ℕ) else 0) := by
        by_cases hv : v = -1
        · simp only [hv, if_true]
          split <;> omega
        · simp [hv]
      omega
    · have hv : v = -1 := by
        rcases List.mem_cons.mp hmem with h | h
        · exact h.symm
        · exact absurd h hrest
      have hrne : rest ≠ [] := by
        intro hr
        subst hr
        exact hlast (by simp) (by simpa using hv)
      have hhD : rest.headD (-1) = rest.head hrne := by
        cases rest
        · exact absurd rfl hrne
        · rfl
      have hhead_ne : rest.headD (-1) ≠ -1 := by
        rw [hhD]
        intro hc
        exact hrest (hc ▸ List.head_mem hrne)
      have h0 : countNeg rest = 0 := by
        unfold countNeg
        rw [List.countP_eq_zero]
        intro a ha
        simp only [decide_eq_true_eq]
        intro hc
        exact hrest (hc ▸ ha)
      have hle := countNeg_passFill_le rest
      rw [if_pos hv, if_pos hv, if_neg hhead_ne]
      omega

lemma no_neg_done (nat : ℕ) (i : List ℕ) (s : List ℤ)
    (hlen : s.length = nat + 1)
    (hnat : s.getD nat 0 = (i.length : ℤ))
    (hinv : ∀ k, k < nat → s.getD k 0 = (countBelow i k : ℤ) ∨ s.getD k 0 = -1)
    (hbnd : ∀ x ∈ i, x < nat)
    (hnoneg : (-1 : ℤ) ∉ s) :
    ∀ k, k ≤ nat → s.getD k 0 = (countBelow i k : ℤ) := by
  intro k hk
  rcases eq_or_lt_of_le hk with rfl | hlt
  · rw [hnat, countBelow_all i k hbnd]
  · rcases hinv k hlt with h | h
    · exact h
    · exfalso
      apply hnoneg
      have hkl : k < s.length := by omega
      rw [List.getD_eq_getElem s 0 hkl] at h
      exact h ▸ List.getElem_mem hkl

/-- One backfill pass preserves the invariant: every slot below `nat`
already holds its CSR value or is still the `-1` sentinel on a slot that
is no pair's first index. -/
lemma passFill_inv (nat : ℕ) (i : List ℕ) (s : List ℤ)
    (hlen : s.length = nat + 1)
    (hnat : s.getD nat 0 = (i.length : ℤ))
    (hinv : ∀ k, k < nat → s.getD k 0 = (countBelow i k : ℤ) ∨
      (s.getD k 0 = -1 ∧ k ∉ i))
    (hbnd : ∀ x ∈ i, x < nat) :
    (passFill s).length = nat + 1 ∧
    (passFill s).getD nat 0 = (i.length : ℤ) ∧
    ∀ k, k < nat → (passFill s).getD k 0 = (countBelow i k : ℤ) ∨
      ((passFill s).getD k 0 = -1 ∧ k ∉ i) := by
  refine ⟨by rw [passFill_length, hlen], ?_, ?_⟩
  · rw [passFill_getD s nat (by omega), hnat,
      if_neg (by omega : ¬(i.length : ℤ) = -1)]
  · intro k hk
    rw [passFill_getD s k (by omega)]
    by_cases hneg : s.getD k 0 = -1
    · rw [if_pos hneg]
      rcases hinv k hk with h | h
      · rw [h] at hneg
        exact absurd hneg (by omega)
      · have hki : k ∉ i := h.2
        have hget : s.getD (k + 1) (-1) = s.getD (k + 1) 0 :=
          getD_irrel s (k + 1) (by omega) _ _
        rw [hget]
        rcases eq_or_lt_of_le (by omega : k + 1 ≤ nat) with heq | hlt
        · left
          rw [heq, hnat]
          have h1 : countBelow i k = countBelow i (k + 1) :=
            (countBelow_succ_of_not_mem i k hki).symm
          rw [h1, heq, countBelow_all i nat hbnd]
        · rcases hinv (k + 1) hlt with h2 | h2
          · left
            rw [h2]
            congr 1
            exact countBelow_succ_of_not_mem i k hki
          · right
            exact ⟨h2.1, hki⟩
    · rw [if_neg hneg]
      exact hinv k hk

/-- The fueled backfill loop finishes and leaves the CSR values everywhere,
provided fuel bounds the number of remaining sentinels. -/
lemma backfill_sound (nat : ℕ) (i : List ℕ) (hbnd : ∀ x ∈ i, x < nat) :
    ∀ (fuel : ℕ) (s : List ℤ),
    s.length = nat + 1 →
    s.getD nat 0 = (i.length : ℤ) →
    (∀ k, k < nat → s.getD k 0 = (countBelow i k : ℤ) ∨
      (s.getD k 0 = -1 ∧ k ∉ i)) →
    countNeg s ≤ fuel →
    (backfill fuel s).length = nat + 1 ∧
    ∀ k, k ≤ nat → (backfill fuel s).getD k 0 = (countBelow i k : ℤ) := by
  intro fuel
  induction fuel with
  | zero =>
    intro s hlen hnat hinv hfuel
    have hnoneg : (-1 : ℤ) ∉ s := by
      intro hmem
      have hpos : 0 < countNeg s := by
        unfold countNeg
        rw [List.countP_pos_iff]
        exact ⟨-1, hmem, by simp⟩
      omega
    constructor
    · simp only [backfill]
      exact hlen
    · intro k hk
      simp only [backfill]
      exact no_neg_done nat i s hlen hnat
        (fun k hk => (hinv k hk).imp id And.left) hbnd hnoneg k hk
  | succ fuel ih =>
    intro s hlen hnat hinv hfuel
    simp only [backfill]
    by_cases hmem : (-1 : ℤ) ∈ s
    · rw [if_pos hmem]
      obtain ⟨hlen', hnat', hinv'⟩ := passFill_inv nat i s hlen hnat hinv hbnd
      apply ih (passFill s) hlen' hnat' hinv'
      have hlast : ∀ h : s ≠ [], s.getLast h ≠ -1 := by
        intro h hc
        have hidx : s.length - 1 < s.length := by omega
        have h1 : s.getD (s.length - 1) 0 = s.getLast h := by
          rw [List.getD_eq_getElem s 0 hidx, List.getLast_eq_getElem s h]
        have hidx2 : s.length - 1 = nat := by omega
        rw [hidx2, hnat] at h1
        rw [hc] at h1
        omega
      have := countNeg_passFill_lt s hmem hlast
      omega
    · rw [if_neg hmem]
      refine ⟨hlen, ?_⟩
      exact no_neg_done nat i s hlen hnat
        (fun k hk => (hinv k hk).imp id And.left) hbnd hmem

/-- Invariant of the vectorized boundary assignment: after the first `m`
fold steps, every slot whose value occurs among the first `m + 1` first
indices holds its CSR value, every other slot below `nat` still holds the
`-1` sentinel, and slot `nat` holds the total pair count. -/
lemma boundaryPrefix_inv (nat : ℕ) (i : List ℕ) (s2 : List ℤ)
    (hs2 : s2 = ((List.replicate (nat + 1) (-1 : ℤ)).set (i.headD 0) 0).set
      nat (i.length : ℤ))
    (hsort : List.Sorted (· ≤ ·) i) (hbnd : ∀ x ∈ i, x < nat)
    (hne : i ≠ []) :
    ∀ m, m + 1 ≤ i.length →
    (boundaryPrefix i m s2).length = nat + 1 ∧
    (boundaryPrefix i m s2).getD nat 0 = (i.length : ℤ) ∧
    ∀ k, k < nat →
      (k ∈ i.take (m + 1) →
        (boundaryPrefix i m s2).getD k 0 = (countBelow i k : ℤ)) ∧
      (k ∉ i.take (m + 1) → (boundaryPrefix i m s2).getD k 0 = -1) := by
  have hhead_mem : i.headD 0 ∈ i := by
    cases i with
    | nil => exact absurd rfl hne
    | cons x xs => exact List.mem_cons_self x xs
  have hhead_lt : i.headD 0 < nat := hbnd _ hhead_mem
  have hs2len : s2.length = nat + 1 := by simp [hs2]
  have hs2nat : s2.getD nat 0 = (i.length : ℤ) := by
    rw [hs2, getD_set']
    simp
  have hs2head : s2.getD (i.headD 0) 0 = 0 := by
    rw [hs2, getD_set', if_neg (fun hc => absurd hc.1 (by omega)), getD_set',
      if_pos ⟨rfl, by rw [List.length_replicate]; omega⟩]
  have hs2other : ∀ k, k < nat → k ≠ i.headD 0 → s2.getD k 0 = -1 := by
    intro k hk hkh
    rw [hs2, getD_set', if_neg (fun hc => absurd hc.1 (by omega)), getD_set',
      if_neg (fun hc => hkh hc.1.symm), getD_replicate' _ _ _ _ (by omega)]
  have htake1 : i.take 1 = [i.headD 0] := by
    cases i with
    | nil => exact absurd rfl hne
    | cons x xs => rfl
  intro m
  induction m with
  | zero =>
    intro _
    have hbp : boundaryPrefix i 0 s2 = s2 := by
      simp [boundaryPrefix]
    rw [hbp, htake1]
    refine ⟨hs2len, hs2nat, ?_⟩
    intro k hk
    constructor
    · intro hmem
      have hkh : k = i.headD 0 := List.mem_singleton.mp hmem
      rw [hkh, hs2head, countBelow_head i hsort hne]
      simp
    · intro hmem
      exact hs2other k hk (fun hc => hmem (hc ▸ List.mem_singleton.mpr rfl))
  | succ m ihm =>
    intro hm
    obtain ⟨ihlen, ihnat, ihk⟩ := ihm (by omega)
    have hm1 : m + 1 < i.length := by omega
    have hm0 : m < i.length := by omega
    have hgm : i.getD m 0 = i[m] := List.getD_eq_getElem i 0 hm0
    have hgm1 : i.getD (m + 1) 0 = i[m + 1] := List.getD_eq_getElem i 0 hm1
    have hstep : boundaryPrefix i (m + 1) s2 =
        (if i.getD m 0 ≠ i.getD (m + 1) 0
          then (boundaryPrefix i m s2).set (i.getD (m + 1) 0) ((m : ℤ) + 1)
          else boundaryPrefix i m s2) := by
      unfold boundaryPrefix
      rw [List.range_succ, List.foldl_append, List.foldl_cons, List.foldl_nil]
    have htake : i.take (m + 1 + 1) = i.take (m + 1) ++ [i[m + 1]] := by
      rw [List.take_succ, List.getElem?_eq_getElem hm1]
      rfl
    have hb1 : i[m + 1] < nat := hbnd _ (List.getElem_mem hm1)
    by_cases hifc : i.getD m 0 ≠ i.getD (m + 1) 0
    · rw [hstep, if_pos hifc, hgm1]
      have hdiff : i[m] ≠ i[m + 1] := by
        rw [hgm, hgm1] at hifc
        exact hifc
      have hcb : countBelow i (i[m + 1]) = m + 1 :=
        countBelow_boundary i hsort hm1 hdiff
      refine ⟨by rw [List.length_set]; exact ihlen, ?_, ?_⟩
      · rw [getD_set', if_neg (by intro hc; omega)]
        exact ihnat
      · intro k hk
        by_cases hk2 : k = i[m + 1]
        · constructor
          · intro _
            have hcond : i[m + 1] = k ∧
                i[m + 1] < (boundaryPrefix i m s2).length := ⟨hk2.symm, by omega⟩
            rw [getD_set', if_pos hcond, hk2, hcb]
            push_cast
            ring
          · intro hmem
            exfalso
            apply hmem
            rw [htake, hk2]
            exact List.mem_append_right _ (List.mem_singleton.mpr rfl)
        · rw [getD_set', if_neg (by intro hc; exact hk2 hc.1.symm)]
          constructor
          · intro hmem
            rw [htake] at hmem
            rcases List.mem_append.mp hmem with h | h
            · exact (ihk k hk).1 h
            · exact absurd (List.mem_singleton.mp h) hk2
          · intro hmem
            apply (ihk k hk).2
            intro hc
            exact hmem (htake ▸ List.mem_append_left _ hc)
    · rw [hstep, if_neg hifc]
      have heq : i[m] = i[m + 1] := by
        rw [hgm, hgm1] at hifc
        exact not_ne_iff.mp hifc
      have hmem_m : i[m + 1] ∈ i.take (m + 1) := by
        apply List.mem_iff_getElem.mpr
        refine ⟨m, by simp [List.length_take]; omega, ?_⟩
        rw [List.getElem_take]
        exact heq
      refine ⟨ihlen, ihnat, ?_⟩
      intro k hk
      constructor
      · intro hmem
        rw [htake] at hmem
        rcases List.mem_append.mp hmem with h | h
        · exact (ihk k hk).1 h
        · exact (ihk k hk).1 (List.mem_singleton.mp h ▸ hmem_m)
      · intro hmem
        apply (ihk k hk).2
        intro hc
        exact hmem (htake ▸ List.mem_append_left _ hc)

/-- `first_neighbors` computes the CSR prefix-count function: on a sorted,
bounded first-index list the result has length `nat + 1` and slot `k`
holds the number of entries strictly below `k`. -/
lemma first_neighbors_eq_countBelow (nat : ℕ) (i : List ℕ)
    (hsort : List.Sorted (· ≤ ·) i) (hbnd : ∀ x ∈ i, x < nat) :
    (first_neighbors nat i).length = nat + 1 ∧
    ∀ k, k ≤ nat → (first_neighbors nat i).getD k 0 = (countBelow i k : ℤ) := by
  by_cases hnil : i.length = 0
  · have hempty : i = [] := List.length_eq_zero.mp hnil
    subst hempty
    unfold first_neighbors
    rw [if_pos (show ([] : List ℕ).length = 0 from rfl)]
    refine ⟨by simp, ?_⟩
    intro k hk
    rw [getD_replicate' (nat + 1) k 0 0 (by omega)]
    unfold countBelow
    simp
  · have hne : i ≠ [] := fun h => hnil (by rw [h]; rfl)
    have hfn : first_neighbors nat i = backfill (nat + 1) (boundarySet i
        (((List.replicate (nat + 1) (-1 : ℤ)).set (i.headD 0) 0).set
          nat (i.length : ℤ))) := by
      unfold first_neighbors
      rw [if_neg hnil]
    obtain ⟨blen, bnat, bk⟩ := boundaryPrefix_inv nat i _ rfl hsort hbnd hne
      (i.length - 1) (by omega)
    rw [boundarySet_as_fold] at hfn
    have htakeall : i.take (i.length - 1 + 1) = i := by
      have h1 : i.length - 1 + 1 = i.length := by omega
      rw [h1, List.take_length]
    have hinv : ∀ k, k < nat →
        (boundaryPrefix i (i.length - 1)
          (((List.replicate (nat + 1) (-1 : ℤ)).set (i.headD 0) 0).set
            nat (i.length : ℤ))).getD k 0 = (countBelow i k : ℤ) ∨
        ((boundaryPrefix i (i.length - 1)
          (((List.replicate (nat + 1) (-1 : ℤ)).set (i.headD 0) 0).set
            nat (i.length : ℤ))).getD k 0 = -1 ∧ k ∉ i) := by
      intro k hk
      by_cases hmem : k ∈ i
      · exact Or.inl ((bk k hk).1 (by rw [htakeall]; exact hmem))
      · exact Or.inr ⟨(bk k hk).2
          (fun hc => hmem (by rw [htakeall] at hc; exact hc)), hmem⟩
    have hfuel : countNeg (boundaryPrefix i (i.length - 1)
        (((List.replicate (nat + 1) (-1 : ℤ)).set (i.headD 0) 0).set
          nat (i.length : ℤ))) ≤ nat + 1 := by
      have := List.countP_le_length
        (fun v : ℤ => decide (v = -1))
        (l := boundaryPrefix i (i.length - 1)
          (((List.replicate (nat + 1) (-1 : ℤ)).set (i.headD 0) 0).set
            nat (i.length : ℤ)))
      unfold countNeg
      omega
    obtain ⟨flen, fk⟩ := backfill_sound nat i hbnd (nat + 1) _ blen bnat hinv hfuel
    rw [hfn]
    exact ⟨flen, fk⟩

/-! ## Lemmas: the stateful `NeighborList` wrapper -/

lemma build_eq (nl : NeighborList) (a : Atoms) (out : List PairRec)
    (hout : neighbor_list a (.perAtom nl.cutoffs) nl.selfInteraction =
      .ok out) :
    nl.build a = .ok { nl with
      nupdates := nl.nupdates + 1
      snap := some ⟨a.pbc, a.cell, a.positions, buildPairs nl out,
        first_neighbors a.positions.length
          ((buildPairs nl out).map (·.1))⟩ } := by
  unfold NeighborList.build buildPairs
  rw [hout]

lemma mem_buildPairs {nl : NeighborList} {out : List PairRec}
    {t : ℕ × ℕ × IVec3} :
    t ∈ buildPairs nl out ↔
      t ∈ out.map (fun p => (p.fst, p.snd, p.shift)) ∧
      (nl.bothways = false → canonicalKeepB t = true) := by
  unfold buildPairs
  have hsort : ∀ l : List (ℕ × ℕ × IVec3),
      t ∈ (if nl.sortedFlag then
        l.insertionSort fun s u =>
          s.1 * l.length + s.2.1 ≤ u.1 * l.length + u.2.1
      else l) ↔ t ∈ l := by
    intro l
    cases nl.sortedFlag with
    | true => exact (List.perm_insertionSort _ l).mem_iff
    | false => exact Iff.rfl
  rw [hsort]
  cases hbw : nl.bothways with
  | true =>
    rw [if_pos rfl]
    constructor
    · intro h
      exact ⟨h, fun hc => absurd hc (by simp)⟩
    · intro h
      exact h.1
  | false =>
    rw [if_neg (by simp), List.mem_filter]
    constructor
    · intro h
      exact ⟨h.1, fun _ => h.2⟩
    · intro h
      exact ⟨h.1, h.2 rfl⟩

/-- The code's half-list mask agrees with the spec's canonical rule. -/
lemma canonicalKeepB_iff_specKeep (i j : ℕ) (S : IVec3) :
    canonicalKeepB (i, j, S) = true ↔ specKeep i j S := by
  unfold canonicalKeepB specKeep firstNonzeroPos
  simp only [Bool.or_eq_true, Bool.and_eq_true, decide_eq_true_eq,
    ne_eq, IVec3.ext_iff', IVec3.zero_ix, IVec3.zero_iy, IVec3.zero_iz]
  omega

/-- Exactly one of a non-degenerate mirror pair passes the half-list mask. -/
lemma canonicalKeepB_xor_mirror (i j : ℕ) (S : IVec3)
    (h : ¬(i = j ∧ S = (0 : IVec3))) :
    (canonicalKeepB (i, j, S) = true ↔ ¬(canonicalKeepB (j, i, -S) = true)) := by
  unfold canonicalKeepB
  simp only [Bool.or_eq_true, Bool.and_eq_true, decide_eq_true_eq,
    ne_eq, IVec3.ext_iff', IVec3.zero_ix, IVec3.zero_iy, IVec3.zero_iz,
    IVec3.neg_ix, IVec3.neg_iy, IVec3.neg_iz] at h ⊢
  omega

lemma maxSqDisp_self (l : List Vec3) (h : l ≠ []) :
    maxSqDisp l l = .ok 0 := by
  have hzero : ∀ m : List Vec3,
      (m.zip m).map (fun pq => (pq.1 - pq.2).sq) =
        List.replicate m.length 0 := by
    intro m
    induction m with
    | nil => rfl
    | cons v rest ih =>
      simp only [List.zip_cons_cons, List.map_cons, ih, List.length_cons,
        List.replicate_succ]
      congr 1
      show (v - v).sq = 0
      simp [Vec3.sq, Vec3.dot]
  have hfold : ∀ n : ℕ, (List.replicate n (0 : ℚ)).foldl max 0 = 0 := by
    intro n
    induction n with
    | zero => rfl
    | succ n ih =>
      rw [List.replicate_succ, List.foldl_cons, max_self]
      exact ih
  unfold maxSqDisp
  rw [if_neg (by simp)]
  rw [hzero]
  cases hm : l.length with
  | zero => exact absurd (List.length_eq_zero.mp hm) h
  | succ n =>
    rw [List.replicate_succ]
    dsimp only
    rw [hfold]

lemma foldl_max_lt {B : ℚ} :
    ∀ (l : List ℚ) (x : ℚ), x < B → (∀ y ∈ l, y < B) → l.foldl max x < B := by
  intro l
  induction l with
  | nil => intro x hx _; exact hx
  | cons v rest ih =>
    intro x hx hall
    rw [List.foldl_cons]
    apply ih
    · exact max_lt hx (hall v (List.mem_cons_self v rest))
    · intro y hy
      exact hall y (List.mem_cons_of_mem v hy)

/-- Bounded displacements yield a successful, bounded `maxSqDisp`. -/
lemma maxSqDisp_lt {old new : List Vec3} (hlen : old.length = new.length)
    (hne : old ≠ []) {B : ℚ}
    (hB : ∀ k, k < old.length → (old.getD k 0 - new.getD k 0).sq < B) :
    ∃ md, maxSqDisp old new = .ok md ∧ md < B := by
  have hmap : ∀ y ∈ (old.zip new).map (fun pq => (pq.1 - pq.2).sq), y < B := by
    intro y hy
    obtain ⟨k, hk, rfl⟩ := List.mem_iff_getElem.mp hy
    rw [List.length_map, List.length_zip] at hk
    have hko : k < old.length := by omega
    have hkn : k < new.length := by omega
    rw [List.getElem_map, List.getElem_zip]
    have h1 : old.getD k 0 = old[k] := List.getD_eq_getElem old 0 hko
    have h2 : new.getD k 0 = new[k] := List.getD_eq_getElem new 0 hkn
    have := hB k hko
    rw [h1, h2] at this
    exact this
  unfold maxSqDisp
  rw [if_neg (by omega)]
  cases hm : (old.zip new).map (fun pq => (pq.1 - pq.2).sq) with
  | nil =>
    exfalso
    have := congrArg List.length hm
    rw [List.length_map, List.length_zip] at this
    simp only [List.length_nil] at this
    have : old.length = 0 := by omega
    exact hne (List.length_eq_zero.mp this)
  | cons x xs =>
    refine ⟨xs.foldl max x, rfl, ?_⟩
    apply foldl_max_lt
    · exact hmap x (by rw [hm]; exact List.mem_cons_self x xs)
    · intro y hy
      exact hmap y (by rw [hm]; exact List.mem_cons_of_mem x hy)

lemma build_ok_run {nl : NeighborList} {a : Atoms} {nl1 : NeighborList}
    (hb : nl.build a = .ok nl1) :
    ∃ out, neighbor_list a (.perAtom nl.cutoffs) nl.selfInteraction =
      .ok out := by
  unfold NeighborList.build at hb
  cases hrun : neighbor_list a (.perAtom nl.cutoffs) nl.selfInteraction with
  | error e =>
    rw [hrun] at hb
    exact absurd hb (by simp)
  | ok out => exact ⟨out, rfl⟩

lemma getD_map_add (radii : List ℚ) (skin : ℚ) {i : ℕ}
    (h : i < radii.length) :
    (radii.map (· + skin)).getD i 0 = radii.getD i 0 + skin := by
  rw [List.getD_eq_getElem (radii.map (· + skin)) 0
      (by rw [List.length_map]; exact h),
    List.getElem_map, List.getD_eq_getElem radii 0 h]

/-- A `PrimitiveNeighborList.build` with a matching cutoff array and
nondegenerate reciprocal vectors on the periodic axes succeeds, stores
the arguments in the snapshot and bumps `nupdates`. -/
lemma primBuild_eq (pnl : PrimitiveNeighborList) (pbc : Bool × Bool × Bool)
    (cell : Mat3) (coords : List Vec3)
    (hlen : pnl.cutoffs.length = coords.length)
    (hax : ¬((pbc.1 ∧ cell.inv.col1.sq = 0) ∨
      (pbc.2.1 ∧ cell.inv.col2.sq = 0) ∨
      (pbc.2.2 ∧ cell.inv.col3.sq = 0))) :
    ∃ (nb : List (List ℕ)) (dp : List (List IVec3)) (nn npbc : ℕ),
      pnl.build pbc cell coords = .ok { pnl with
        nupdates := pnl.nupdates + 1
        nneighbors := nn
        npbcneighbors := npbc
        snap := some ⟨pbc, cell, coords, nb, dp⟩ } := by
  unfold PrimitiveNeighborList.build
  rw [if_neg (show ¬pnl.cutoffs.length ≠ coords.length from
    not_not.mpr hlen)]
  dsimp only
  rw [if_neg hax]
  exact ⟨_, _, _, _, rfl⟩

/-! ## Claim theorems -/

/-- C1: for every pair returned by `neighbor_list` with a scalar cutoff
`c`, the displacement equals `position[j] - position[i] + S·cell`, the
stored squared distance is that displacement's squared norm, and the
distance is strictly below `c` (so no pair at distance `≥ c` is ever
returned). -/
theorem C1_distance_bound (a : Atoms) (c : ℚ) (si : Bool)
    (out : List PairRec)
    (hrun : neighbor_list a (.scalar c) si = .ok out) :
    ∀ p ∈ out,
      p.disp = (a.positions.getD p.snd 0) - (a.positions.getD p.fst 0) +
        Mat3.ivecMul p.shift a.cell ∧
      p.sqd = p.disp.sq ∧
      Real.sqrt (p.sqd : ℝ) < (c : ℝ) := by
  intro p hp
  obtain ⟨hd, hs⟩ := out_disp_eq hrun hp
  have hb := out_distLt_scalar hrun hp
  have hnn : 0 ≤ p.sqd := by rw [hs]; exact Vec3.sq_nonneg' _
  exact ⟨hd, hs, (distLtB_iff_sqrt_lt hnn c).mp hb⟩

/-- C2: the full output of `neighbor_list` is mirror-symmetric — for every
returned record `(i, j, S)` the record `(j, i, -S)` is also returned,
with the same squared distance. -/
theorem C2_mirror_symmetry (a : Atoms) (cut : NLCutoff) (si : Bool)
    (out : List PairRec) (hrun : neighbor_list a cut si = .ok out) :
    ∀ p ∈ out, p.mirror ∈ out ∧ p.mirror.fst = p.snd ∧
      p.mirror.snd = p.fst ∧ p.mirror.shift = -p.shift ∧
      p.mirror.sqd = p.sqd :=
  fun _ hp => ⟨neighbor_list_mirror hrun hp, rfl, rfl, rfl, rfl⟩

/-- C3: on a sorted first-index list bounded by the particle count `nat`,
`first_neighbors` returns a CSR index of length `nat + 1` that is
non-decreasing, ends in the total pair count, and whose consecutive
differences count the pairs of each first index; the empty list yields the
all-zero array. -/
theorem C3_csr_completeness (nat : ℕ) (i : List ℕ)
    (hsort : List.Sorted (· ≤ ·) i) (hbnd : ∀ x ∈ i, x < nat) :
    (first_neighbors nat i).length = nat + 1 ∧
    (∀ k k' : ℕ, k ≤ k' → k' ≤ nat →
      (first_neighbors nat i).getD k 0 ≤ (first_neighbors nat i).getD k' 0) ∧
    (first_neighbors nat i).getD nat 0 = (i.length : ℤ) ∧
    (∀ k, k < nat →
      (first_neighbors nat i).getD (k + 1) 0 -
        (first_neighbors nat i).getD k 0 = (i.count k : ℤ)) ∧
    first_neighbors nat [] = List.replicate (nat + 1) 0 := by
  obtain ⟨hlen, hval⟩ := first_neighbors_eq_countBelow nat i hsort hbnd
  refine ⟨hlen, ?_, ?_, ?_, ?_⟩
  · intro k k' hkk hk'
    rw [hval k (by omega), hval k' hk']
    exact_mod_cast countBelow_mono i hkk
  · rw [hval nat (le_refl nat), countBelow_all i nat hbnd]
  · intro k hk
    rw [hval (k + 1) (by omega), hval k (by omega), countBelow_succ_count]
    push_cast
    ring
  · unfold first_neighbors
    rw [if_pos (show ([] : List ℕ).length = 0 from rfl)]

/-- C4: with `self_interaction = false` no zero-shift self pair `(i, i, 0)`
is returned; with `self_interaction = true` and a positive scalar cutoff,
exactly one such record appears per particle. -/
theorem C4_self_interaction (a : Atoms) (c : ℚ) (hc : 0 < c)
    (outF outT : List PairRec)
    (hF : neighbor_list a (.scalar c) false = .ok outF)
    (hT : neighbor_list a (.scalar c) true = .ok outT) :
    (∀ p ∈ outF, ¬(p.fst = p.snd ∧ p.shift = (0 : IVec3))) ∧
    ∀ i, i < a.positions.length → outT.countP (recIsSelfPair i) = 1 :=
  ⟨fun _ hp => no_self_mem hF hp, fun _ hi => countP_out_selfPair hT hc hi⟩

/-- C5: with `bothways` off, `NeighborList.build` caches exactly the pairs
of the full enumeration that satisfy the canonical half-list rule (zero
shift: keep iff `i ≤ j`; nonzero shift: keep iff the first nonzero shift
component is positive), and of every non-degenerate mirror pair exactly
one orientation survives. -/
theorem C5_half_list_canonical (nl : NeighborList) (a : Atoms)
    (out : List PairRec) (nl' : NeighborList) (sn : Snapshot)
    (hbw : nl.bothways = false)
    (hout : neighbor_list a (.perAtom nl.cutoffs) nl.selfInteraction =
      .ok out)
    (hb : nl.build a = .ok nl') (hsn : nl'.snap = some sn) :
    (∀ t : ℕ × ℕ × IVec3, t ∈ sn.pairs ↔
      (t ∈ out.map (fun p => (p.fst, p.snd, p.shift)) ∧
        specKeep t.1 t.2.1 t.2.2)) ∧
    ∀ i j : ℕ, ∀ S : IVec3, ¬(i = j ∧ S = (0 : IVec3)) →
      (i, j, S) ∈ out.map (fun p => (p.fst, p.snd, p.shift)) →
      (((i, j, S) ∈ sn.pairs ∧ (j, i, -S) ∉ sn.pairs) ∨
        ((i, j, S) ∉ sn.pairs ∧ (j, i, -S) ∈ sn.pairs)) := by
  have hb' := build_eq nl a out hout
  rw [hb] at hb'
  have hnl' := Except.ok.inj hb'
  rw [hnl'] at hsn
  have hsn' := Option.some.inj hsn
  have hpairs : sn.pairs = buildPairs nl out := by rw [← hsn']
  have hmemchar : ∀ t : ℕ × ℕ × IVec3, t ∈ sn.pairs ↔
      (t ∈ out.map (fun p => (p.fst, p.snd, p.shift)) ∧
        canonicalKeepB t = true) := by
    intro t
    rw [hpairs, mem_buildPairs]
    constructor
    · intro h
      exact ⟨h.1, h.2 hbw⟩
    · intro h
      exact ⟨h.1, fun _ => h.2⟩
  constructor
  · intro t
    obtain ⟨i, j, S⟩ := t
    rw [hmemchar (i, j, S)]
    rw [show ((i, j, S) : ℕ × ℕ × IVec3).1 = i from rfl]
    rw [canonicalKeepB_iff_specKeep i j S]
  · intro i j S hnd hmem
    have hmir : (j, i, -S) ∈ out.map (fun p => (p.fst, p.snd, p.shift)) := by
      rw [List.mem_map] at hmem ⊢
      obtain ⟨p, hp, heq⟩ := hmem
      have h1 : p.fst = i := congrArg (·.1) heq
      have h2 : p.snd = j := congrArg (·.2.1) heq
      have h3 : p.shift = S := congrArg (·.2.2) heq
      refine ⟨p.mirror, neighbor_list_mirror hout hp, ?_⟩
      show (p.snd, p.fst, -p.shift) = (j, i, -S)
      rw [h1, h2, h3]
    have hxor := canonicalKeepB_xor_mirror i j S hnd
    by_cases hkeep : canonicalKeepB (i, j, S) = true
    · left
      refine ⟨(hmemchar _).mpr ⟨hmem, hkeep⟩, ?_⟩
      intro hcon
      exact (hxor.mp hkeep) ((hmemchar _).mp hcon).2
    · right
      refine ⟨fun hcon => hkeep ((hmemchar _).mp hcon).2, ?_⟩
      apply (hmemchar _).mpr
      refine ⟨hmir, ?_⟩
      by_contra hc
      exact hkeep (hxor.mpr hc)

/-- C6: after a successful `build` of a `NeighborList` initialised with
radii `radii` and skin `skin`, if neither the cell nor the periodicity
changes and every atom moves strictly less than `skin / 2`, the next
`update` reports `rebuilt = false`, and every admissible pair whose
current-geometry distance is strictly below the nominal cutoff sum
`radii[i] + radii[j]` is still cached (possibly in mirrored
orientation). -/
theorem C6_skin_tolerance (radii : List ℚ) (skin : ℚ)
    (sorted si bw : Bool) (a b : Atoms) (nl1 : NeighborList) (sn : Snapshot)
    (hskin : 0 ≤ skin) (hdet : a.cell.det ≠ 0)
    (hrad : ∀ r ∈ radii, 0 ≤ r)
    (hlen : radii.length = a.positions.length)
    (hb : (NeighborList.init radii skin sorted si bw).build a = .ok nl1)
    (hsn : nl1.snap = some sn)
    (hcell : b.cell = a.cell) (hpbc : b.pbc = a.pbc)
    (hblen : b.positions.length = a.positions.length)
    (hmove : ∀ k, k < a.positions.length →
      (a.positions.getD k 0 - b.positions.getD k 0).sq < (skin / 2) ^ 2)
    (i j : ℕ) (S : IVec3)
    (hi : i < b.positions.length) (hj : j < b.positions.length)
    (hpbcS : pbcOKS b S) (hnd : ¬(i = j ∧ S = (0 : IVec3)))
    (hclose : (b.positions.getD j 0 - b.positions.getD i 0 +
      Mat3.ivecMul S b.cell).sq <
      (radii.getD i 0 + radii.getD j 0) ^ 2) :
    nl1.update b = .ok (false, nl1) ∧
    ((i, j, S) ∈ sn.pairs ∨ (j, i, -S) ∈ sn.pairs) := by
  obtain ⟨out, hout⟩ := build_ok_run hb
  have hbuild := build_eq (NeighborList.init radii skin sorted si bw) a
    out hout
  rw [hb] at hbuild
  have hnl1 := Except.ok.inj hbuild
  rw [hnl1] at hsn
  dsimp only at hsn
  have hsn' := Option.some.inj hsn
  have hN : a.positions.length ≠ 0 := by
    obtain ⟨c, _, hN', _⟩ := neighbor_list_ok hout
    exact hN'
  have hane : a.positions ≠ [] := by
    intro hc
    exact hN (by rw [hc]; rfl)
  have hi' : i < a.positions.length := by omega
  have hj' : j < a.positions.length := by omega
  have hpbcSa : pbcOKS a S := by
    unfold pbcOKS at hpbcS ⊢
    rw [hpbc] at hpbcS
    exact hpbcS
  have hri : 0 ≤ radii.getD i 0 := hrad _ (getD_mem_of_lt (by omega))
  have hrj : 0 ≤ radii.getD j 0 := hrad _ (getD_mem_of_lt (by omega))
  have hsk2 : 0 ≤ skin / 2 := by linarith
  have hwj : (a.positions.getD j 0 - b.positions.getD j 0).sq <
      (skin / 2) ^ 2 := hmove j hj'
  have hwi : (a.positions.getD i 0 - b.positions.getD i 0).sq <
      (skin / 2) ^ 2 := hmove i hi'
  have hDb : (b.positions.getD j 0 - b.positions.getD i 0 +
      Mat3.ivecMul S a.cell).sq <
      (radii.getD i 0 + radii.getD j 0) ^ 2 := by
    rw [← hcell]
    exact hclose
  have step1 := Vec3.sq_add_lt
    (b.positions.getD j 0 - b.positions.getD i 0 + Mat3.ivecMul S a.cell)
    (a.positions.getD j 0 - b.positions.getD j 0)
    (radii.getD i 0 + radii.getD j 0) (skin / 2)
    (by linarith) hsk2 hDb hwj
  have step2 := Vec3.sq_add_lt
    ((b.positions.getD j 0 - b.positions.getD i 0 + Mat3.ivecMul S a.cell) +
      (a.positions.getD j 0 - b.positions.getD j 0))
    (-(a.positions.getD i 0 - b.positions.getD i 0))
    (radii.getD i 0 + radii.getD j 0 + skin / 2) (skin / 2)
    (by linarith) hsk2 step1
    (by rw [Vec3.sq_neg]; exact hwi)
  have hDa : (a.positions.getD j 0 - a.positions.getD i 0 +
      Mat3.ivecMul S a.cell) =
      ((b.positions.getD j 0 - b.positions.getD i 0 +
        Mat3.ivecMul S a.cell) +
        (a.positions.getD j 0 - b.positions.getD j 0)) +
      (-(a.positions.getD i 0 - b.positions.getD i 0)) := by
    apply Vec3.ext' <;>
      simp only [Vec3.add_x, Vec3.add_y, Vec3.add_z, Vec3.sub_x, Vec3.sub_y,
        Vec3.sub_z, Vec3.neg_x, Vec3.neg_y, Vec3.neg_z] <;> ring
  have hDa_lt : (a.positions.getD j 0 - a.positions.getD i 0 +
      Mat3.ivecMul S a.cell).sq <
      ((radii.getD i 0 + skin) + (radii.getD j 0 + skin)) ^ 2 := by
    rw [hDa]
    calc ((b.positions.getD j 0 - b.positions.getD i 0 +
          Mat3.ivecMul S a.cell) +
          (a.positions.getD j 0 - b.positions.getD j 0) +
          (-(a.positions.getD i 0 - b.positions.getD i 0))).sq <
        (radii.getD i 0 + radii.getD j 0 + skin / 2 + skin / 2) ^ 2 := step2
      _ ≤ ((radii.getD i 0 + skin) + (radii.getD j 0 + skin)) ^ 2 := by
        nlinarith
  have hcs : (NeighborList.init radii skin sorted si bw).cutoffs =
      radii.map (· + skin) := rfl
  have hmem : pairRecOf a (i, j, S) ∈ out := by
    apply neighbor_list_complete_perAtom hout hdet hi' hj' hpbcSa
      (fun _ => hnd) ?_ ?_ ?_
    · rw [hcs, getD_map_add radii skin (by omega),
        getD_map_add radii skin (by omega)]
      linarith
    · rw [hcs, List.length_map]
      exact hlen
    · rw [hcs, getD_map_add radii skin (by omega),
        getD_map_add radii skin (by omega)]
      rw [pairRecOf_sqd, pairRecOf_disp]
      exact hDa_lt
  have hmemmap : (i, j, S) ∈ out.map (fun p => (p.fst, p.snd, p.shift)) :=
    List.mem_map.mpr ⟨pairRecOf a (i, j, S), hmem, by simp⟩
  have hmirmap : (j, i, -S) ∈ out.map (fun p => (p.fst, p.snd, p.shift)) :=
    List.mem_map.mpr ⟨(pairRecOf a (i, j, S)).mirror,
      neighbor_list_mirror hout hmem, by simp [PairRec.mirror]⟩
  have hpairs : sn.pairs =
      buildPairs (NeighborList.init radii skin sorted si bw) out := by
    rw [← hsn']
  constructor
  · rw [hnl1]
    unfold NeighborList.update
    rw [if_neg (by simp)]
    show (match (some ⟨a.pbc, a.cell, a.positions,
        buildPairs (NeighborList.init radii skin sorted si bw) out,
        first_neighbors a.positions.length
          ((buildPairs (NeighborList.init radii skin sorted si bw)
            out).map (·.1))⟩ : Option Snapshot) with
      | none => Except.error NLErr.attributeError
      | some sn => _) = _
    dsimp only
    rw [if_neg (by rw [hpbc]; simp), if_neg (by rw [hcell]; simp)]
    obtain ⟨md, hmd, hmdlt⟩ := maxSqDisp_lt
      (show a.positions.length = b.positions.length by omega) hane hmove
    rw [hmd]
    dsimp only
    rw [if_neg ?_]
    show ¬ md > (NeighborList.init radii skin sorted si bw).skin ^ 2
    have hsk : (NeighborList.init radii skin sorted si bw).skin = skin := rfl
    rw [hsk]
    have : (skin / 2) ^ 2 ≤ skin ^ 2 := by nlinarith
    simp only [gt_iff_lt, not_lt]
    linarith
  · rw [hpairs]
    by_cases hkeep : canonicalKeepB (i, j, S) = true
    · exact Or.inl (mem_buildPairs.mpr ⟨hmemmap, fun _ => hkeep⟩)
    · refine Or.inr (mem_buildPairs.mpr ⟨hmirmap, fun _ => ?_⟩)
      by_contra hc
      exact hkeep ((canonicalKeepB_xor_mirror i j S hnd).mpr hc)

/-- C7: for both `NeighborList` and `PrimitiveNeighborList`, the first
`update` performs the build and reports `true`; a second `update` with
the identical configuration reports `false` and returns the state
unchanged (same cached pairs, CSR index and snapshot).  The cutoff-array
lengths must match the atom counts: the wrapper's per-atom indexing
raises `IndexError` on a shorter array (`src/ase/neighborlist.py:339`)
and the primitive `build` raises `ValueError` outright
(`src/ase/neighborlist.py:605`). -/
theorem C7_rebuild_idempotence (nl : NeighborList) (a : Atoms)
    (hn0 : nl.nupdates = 0) (hcut : nl.cutoffs ≠ [])
    (hlen : nl.cutoffs.length = a.positions.length)
    (hpos : a.positions ≠ [])
    (pnl : PrimitiveNeighborList) (pbc : Bool × Bool × Bool) (cell : Mat3)
    (coords : List Vec3) (hpn0 : pnl.nupdates = 0)
    (hplen : pnl.cutoffs.length = coords.length) (hpcoords : coords ≠ [])
    (hpdet : cell.det ≠ 0) :
    (∃ nl1, nl.update a = .ok (true, nl1) ∧
      nl1.update a = .ok (false, nl1)) ∧
    ∃ pnl1, pnl.update pbc cell coords = .ok (true, pnl1) ∧
      pnl1.update pbc cell coords = .ok (false, pnl1) := by
  constructor
  · have hN : a.positions.length ≠ 0 := by
      intro hc
      exact hpos (List.length_eq_zero.mp hc)
    have hok : ∃ out, neighbor_list a (.perAtom nl.cutoffs)
        nl.selfInteraction = .ok out := neighbor_list_perAtom_isOk hcut hN
    obtain ⟨out, hout⟩ := hok
    have hbuild := build_eq nl a out hout
    refine ⟨{ nl with
        nupdates := nl.nupdates + 1
        snap := some ⟨a.pbc, a.cell, a.positions, buildPairs nl out,
          first_neighbors a.positions.length
            ((buildPairs nl out).map (·.1))⟩ }, ?_, ?_⟩
    · unfold NeighborList.update
      rw [if_pos hn0, hbuild]
    · unfold NeighborList.update
      rw [if_neg (by simp)]
      show (match (some ⟨a.pbc, a.cell, a.positions, buildPairs nl out,
          first_neighbors a.positions.length
            ((buildPairs nl out).map (·.1))⟩ : Option Snapshot) with
        | none => Except.error NLErr.attributeError
        | some sn => _) = _
      dsimp only
      rw [if_neg (by simp), if_neg (by simp),
        maxSqDisp_self a.positions hpos]
      dsimp only
      rw [if_neg (by simp [not_lt]; exact sq_nonneg _)]
  · have hax : ¬((pbc.1 ∧ cell.inv.col1.sq = 0) ∨
        (pbc.2.1 ∧ cell.inv.col2.sq = 0) ∨
        (pbc.2.2 ∧ cell.inv.col3.sq = 0)) := by
      have h1 := Mat3.invcol1_sq_pos cell hpdet
      have h2 := Mat3.invcol2_sq_pos cell hpdet
      have h3 := Mat3.invcol3_sq_pos cell hpdet
      rintro (⟨_, hc⟩ | ⟨_, hc⟩ | ⟨_, hc⟩) <;> linarith
    obtain ⟨nb, dp, nn, npbc, hpb⟩ :=
      primBuild_eq pnl pbc cell coords hplen hax
    refine ⟨{ pnl with
        nupdates := pnl.nupdates + 1
        nneighbors := nn
        npbcneighbors := npbc
        snap := some ⟨pbc, cell, coords, nb, dp⟩ }, ?_, ?_⟩
    · unfold PrimitiveNeighborList.update
      rw [if_pos hpn0, hpb]
    · unfold PrimitiveNeighborList.update
      rw [if_neg (by simp)]
      show (match (some ⟨pbc, cell, coords, nb, dp⟩ :
          Option PrimSnapshot) with
        | none => Except.error NLErr.attributeError
        | some sn => _) = _
      dsimp only
      rw [if_neg (by simp), if_neg (by simp), maxSqDisp_self coords hpcoords]
      dsimp only
      rw [if_neg (by simp [not_lt]; exact sq_nonneg _)]

/-- C8 (counterexample): on a configuration with zero particles
`neighbor_list` does not return an empty result — it raises the numpy
`ValueError` of the empty `np.bincount(...).max()` reduction
(`src/ase/neighborlist.py:183`). -/
theorem C8_zero_atoms_raises :
    neighbor_list A0 (.scalar 3) false = .error .emptyReduction := by
  with_unfolding_all decide

/-- C8 (amended): with zero particles every scalar-cutoff call raises the
empty-reduction `ValueError`; with exactly one particle, no periodicity
and `self_interaction = false` the result is the empty list. -/
theorem C8_degenerate_empty :
    (∀ (a : Atoms) (c : ℚ) (si : Bool), a.positions = [] →
      neighbor_list a (.scalar c) si = .error .emptyReduction) ∧
    ∀ (a : Atoms) (c : ℚ) (out : List PairRec),
      a.positions.length = 1 → a.pbc = (false, false, false) →
      neighbor_list a (.scalar c) false = .ok out → out = [] := by
  constructor
  · intro a c si hnil
    unfold neighbor_list maxCutoffE
    dsimp only
    rw [if_pos (by rw [hnil]; rfl)]
  · intro a c out h1 hpbc hrun
    obtain ⟨c', hc', hN, rfl⟩ := neighbor_list_ok hrun
    rw [List.eq_nil_iff_forall_not_mem]
    intro p hp
    have hp' := mem_of_mem_cutoffFiltered hp
    rw [maxCutFiltered, List.mem_filter] at hp'
    obtain ⟨hmem, _⟩ := hp'
    rw [toRecs, List.mem_map] at hmem
    obtain ⟨t, ht, rfl⟩ := hmem
    obtain ⟨i, j, S⟩ := t
    rw [mem_sortPairs, mem_pbcFiltered, mem_selfFiltered] at ht
    obtain ⟨⟨hraw, hself⟩, hpbcS⟩ := ht
    obtain ⟨σ, hemit, hS⟩ := mem_rawPairs.mp hraw
    obtain ⟨hi, hj, _⟩ := mem_emitPairs.mp hemit
    unfold pbcOKS at hpbcS
    rw [hpbc] at hpbcS
    have hS0 : S = (0 : IVec3) := by
      rw [IVec3.ext_iff']
      exact ⟨hpbcS.1 rfl, hpbcS.2.1 rfl, hpbcS.2.2 rfl⟩
    exact hself rfl ⟨show i = j by omega, hS0⟩

/-- C9 (counterexample): a pair-cutoff table whose species symbol `"Xq"`
is unknown to `ase.data.atomic_numbers` does not fail fast — the
`try/except: pass` of `src/ase/neighborlist.py:321`-`329` silently skips
the entry, every pair keeps the zero default cutoff, and the call
succeeds with an empty list. -/
theorem C9_unknown_species_silent :
    neighbor_list A2 (.table [((Species.sym "Xq", Species.sym "Xq"), 2)])
      false = .ok [] := by
  with_unfolding_all decide

/-- C9 (amended): a dictionary-cutoff run never fails on unmatched
species; instead every returned pair satisfies the strict distance test
against whatever cutoff the table lookup produced (`0`, failing the test,
for pairs no entry matches — such pairs are silently dropped). -/
theorem C9_table_cutoff_filter (a : Atoms)
    (es : List ((Species × Species) × ℚ)) (si : Bool)
    (out : List PairRec) (h : neighbor_list a (.table es) si = .ok out) :
    ∀ p ∈ out, distLtB p.sqd (pairCutLookup es (a.numbers.getD p.fst 0)
      (a.numbers.getD p.snd 0)) = true := by
  obtain ⟨c, hc, hN, rfl⟩ := neighbor_list_ok h
  intro p hp
  unfold cutoffFiltered at hp
  exact (List.mem_filter.mp hp).2

/-- C10: `get_neighbors` on a freshly initialised `NeighborList` (no
`update`/`build` yet) raises `AttributeError` — the pair and CSR
attributes do not exist — and never returns a fabricated empty result. -/
theorem C10_get_neighbors_before_build (cutoffs : List ℚ) (skin : ℚ)
    (sorted si bw : Bool) (k : ℕ) :
    (NeighborList.init cutoffs skin sorted si bw).get_neighbors k =
      .error .attributeError := rfl

/-! ## Witnesses: each claim theorem applied at a concrete input -/

theorem C1_distance_bound_witness :
    pA.disp = (A2.positions.getD pA.snd 0) - (A2.positions.getD pA.fst 0) +
      Mat3.ivecMul pA.shift A2.cell ∧
    pA.sqd = pA.disp.sq ∧
    Real.sqrt ((pA.sqd : ℚ) : ℝ) < ((3 : ℚ) : ℝ) :=
  C1_distance_bound A2 3 false outA2 (by with_unfolding_all decide) pA
    (by with_unfolding_all decide)

theorem C2_mirror_symmetry_witness :
    pA.mirror ∈ outA2 ∧ pA.mirror.fst = pA.snd ∧ pA.mirror.snd = pA.fst ∧
      pA.mirror.shift = -pA.shift ∧ pA.mirror.sqd = pA.sqd :=
  C2_mirror_symmetry A2 (.scalar 3) false outA2
    (by with_unfolding_all decide) pA (by with_unfolding_all decide)

theorem C3_csr_completeness_witness :
    (first_neighbors 3 [0, 0, 2]).length = 3 + 1 ∧
    (∀ k k' : ℕ, k ≤ k' → k' ≤ 3 →
      (first_neighbors 3 [0, 0, 2]).getD k 0 ≤
        (first_neighbors 3 [0, 0, 2]).getD k' 0) ∧
    (first_neighbors 3 [0, 0, 2]).getD 3 0 = (([0, 0, 2] : List ℕ).length : ℤ) ∧
    (∀ k, k < 3 →
      (first_neighbors 3 [0, 0, 2]).getD (k + 1) 0 -
        (first_neighbors 3 [0, 0, 2]).getD k 0 =
          (([0, 0, 2] : List ℕ).count k : ℤ)) ∧
    first_neighbors 3 [] = List.replicate (3 + 1) 0 :=
  C3_csr_completeness 3 [0, 0, 2] (by decide) (by decide)

theorem C4_self_interaction_witness :
    (∀ p ∈ outA2, ¬(p.fst = p.snd ∧ p.shift = (0 : IVec3))) ∧
    ∀ i, i < A2.positions.length → outA2T.countP (recIsSelfPair i) = 1 :=
  C4_self_interaction A2 3 (by with_unfolding_all decide) outA2 outA2T
    (by with_unfolding_all decide) (by with_unfolding_all decide)

theorem C5_half_list_canonical_witness :
    (∀ t : ℕ × ℕ × IVec3, t ∈ snA2.pairs ↔
      (t ∈ outA2.map (fun p => (p.fst, p.snd, p.shift)) ∧
        specKeep t.1 t.2.1 t.2.2)) ∧
    ∀ i j : ℕ, ∀ S : IVec3, ¬(i = j ∧ S = (0 : IVec3)) →
      (i, j, S) ∈ outA2.map (fun p => (p.fst, p.snd, p.shift)) →
      (((i, j, S) ∈ snA2.pairs ∧ (j, i, -S) ∉ snA2.pairs) ∨
        ((i, j, S) ∉ snA2.pairs ∧ (j, i, -S) ∈ snA2.pairs)) :=
  C5_half_list_canonical nl5 A2 outA2 nl5' snA2 rfl
    (by with_unfolding_all decide) (by with_unfolding_all decide) rfl

theorem C6_skin_tolerance_witness :
    nl6'.update B2 = .ok (false, nl6') ∧
    (((0 : ℕ), (1 : ℕ), (0 : IVec3)) ∈ snA2.pairs ∨
      ((1 : ℕ), (0 : ℕ), -(0 : IVec3)) ∈ snA2.pairs) :=
  C6_skin_tolerance [3/2, 3/2] 1 false false false A2 B2 nl6' snA2
    (by with_unfolding_all decide) (by with_unfolding_all decide)
    (by with_unfolding_all decide) rfl (by with_unfolding_all decide) rfl
    rfl rfl rfl (by with_unfolding_all decide) 0 1 0
    (by with_unfolding_all decide) (by with_unfolding_all decide)
    (by with_unfolding_all decide) (by with_unfolding_all decide)
    (by with_unfolding_all decide)

theorem C7_rebuild_idempotence_witness :
    (∃ nl1, (NeighborList.init [3/2, 3/2] 1 false false false).update A2 =
        .ok (true, nl1) ∧
      nl1.update A2 = .ok (false, nl1)) ∧
    ∃ pnl1, (PrimitiveNeighborList.init [3/2, 3/2] 1 false false false
        false).update (false, false, false) cell3 A2.positions =
        .ok (true, pnl1) ∧
      pnl1.update (false, false, false) cell3 A2.positions =
        .ok (false, pnl1) :=
  C7_rebuild_idempotence (NeighborList.init [3/2, 3/2] 1 false false false)
    A2 rfl (by with_unfolding_all decide) (by with_unfolding_all decide)
    (by with_unfolding_all decide)
    (PrimitiveNeighborList.init [3/2, 3/2] 1 false false false false)
    (false, false, false) cell3 A2.positions rfl
    (by with_unfolding_all decide) (by with_unfolding_all decide)
    (by with_unfolding_all decide)

theorem C9_table_cutoff_filter_witness :
    distLtB pA.sqd (pairCutLookup esH (A2.numbers.getD pA.fst 0)
      (A2.numbers.getD pA.snd 0)) = true :=
  C9_table_cutoff_filter A2 esH false outA2
    (by with_unfolding_all decide) pA (by with_unfolding_all decide)

end AseNL
